import Mathlib

/-!
# The Turing machine simulator of `turing.c`

A shallow embedding of `src/turing.c` and the properties of its parser, its
transition index and its execution engine.

Modelling conventions

* A C `char` is a Lean `Char`; `NUL` is the terminator of C strings.  A value of
  type `List Char` that stands for a `char *` is the memory the pointer points
  to, read up to the first `NUL` (the end of the list counts as `NUL`).
* `int` variables are integers; the program never takes them out of the range of
  `int` on the inputs considered (sizes are bounded by the arena).
* The buffers of the parser are lists of their own.  The tape is the list of
  its `tape_size` cells together with the offset of its first cell in the
  arena, because `expand_tape` places the new block relative to the old one.
* The engine reads and writes `tape[tape_head]` wherever the head is: the state
  of a run carries the bytes of memory before and behind the cells of the tape,
  and an access with the head outside the tape goes to these bytes.
* Where the parser would store outside one of its arrays (a state name of 50
  characters, a 513th transition, a read that ends behind the block of `buffer`)
  the model stops with an explicit fault instead of inventing a value.
-/

namespace Turing

/-! ## Constants (the `#define`s of the source) -/

/-- BUFFER_SIZE: initial size of the read buffer and of the line buffer. -/
def BUFFER_SIZE : Nat := 4096

/-- MAX_STATE_NAME: size of the `char` arrays that hold a state name. -/
def MAX_STATE_NAME : Nat := 50

/-- MEMORY_POOL_SIZE: size of the arena `memory_pool`. -/
def MEMORY_POOL_SIZE : Int := 32 * 1024 * 1024

/-- INITIAL_TAPE_SIZE: initial value of `tape_size`. -/
def INITIAL_TAPE_SIZE : Nat := 4096

/-- GROWTH_FACTOR: factor by which the tape grows. -/
def GROWTH_FACTOR : Int := 2

/-- HASH_TABLE_SIZE: number of buckets, and length of the array `transitions`. -/
def HASH_TABLE_SIZE : Nat := 512

/-- The step limit written as the literal 100000 in `runMachine`. -/
def STEP_LIMIT : Nat := 100000

/-- The terminator of C strings. -/
def NUL : Char := Char.ofNat 0

/-- The blank symbol of the tape. -/
def BLANK : Char := '_'

/-! ## Strings -/

/-- The C string stored at a pointer: the characters before the first `NUL`. -/
def cstr : List Char → List Char
  | [] => []
  | c :: cs => if c = NUL then [] else c :: cstr cs

/-- my_strcmp: walks both strings while the first is not at its end and the
characters agree, then returns the difference of the two characters reached. -/
def my_strcmp : List Char → List Char → Int
  | [], b => (0 : Int) - ((b.headD NUL).toNat : Int)
  | a :: as, b =>
    if a ≠ NUL ∧ a = b.headD NUL then my_strcmp as b.tail
    else (a.toNat : Int) - ((b.headD NUL).toNat : Int)

/-- my_strcpy: the destination receives the source up to its terminator. -/
def my_strcpy (src : List Char) : List Char := cstr src

/-! ## Arena -/

/-- custom_malloc: a bump allocator over `memory_pool`.  The result is the new
value of `memory_offset`, or `none` when the request does not fit (the C function
then returns `NULL` and leaves `memory_offset` as it was). -/
def custom_malloc (memory_offset size : Int) : Option Int :=
  if memory_offset + size > MEMORY_POOL_SIZE then none
  else some (memory_offset + size)

/-- A read `mem[i]` of arena memory: bytes never written are zero. -/
def peek (mem : List Char) (i : Nat) : Char := mem.getD i NUL

/-- A store `mem[i] = c` into arena memory. -/
def poke (mem : List Char) (i : Nat) (c : Char) : List Char :=
  if i < mem.length then mem.set i c
  else mem ++ List.replicate (i - mem.length) NUL ++ [c]

/-! ## Transitions and the hash table -/

/-- The struct `Transition`. -/
structure Transition where
  start_state : List Char
  read_symbol : Char
  next_state : List Char
  write_symbol : Char
  direction : Char
deriving DecidableEq, Repr

/-- The array `hash_table`: one chain of transitions per bucket, the head of the
chain first. -/
abbrev HashTable := List (List Transition)

/-- The table before any insertion: every bucket is `NULL`. -/
def empty_table : HashTable := List.replicate HASH_TABLE_SIZE []

/-- The `while (*state)` loop of `hash_function`, in `unsigned int` arithmetic;
a character enters with its code. -/
def hash_loop : Nat → List Char → Nat
  | hash, [] => hash
  | hash, c :: cs =>
    if c = NUL then hash else hash_loop ((hash * 31 + c.toNat) % 2 ^ 32) cs

/-- hash_function: polynomial hash of the state name plus the symbol, masked to
the table size. -/
def hash_function (state : List Char) (read_symbol : Char) : Nat :=
  ((hash_loop 0 state + read_symbol.toNat) % 2 ^ 32) &&& (HASH_TABLE_SIZE - 1)

/-- add_to_hash_table: a new node is put in front of the chain of its bucket.
The node comes from `custom_malloc`, whose result the C function does not check;
the model is the function on a successful allocation. -/
def add_to_hash_table (table : HashTable) (transition : Transition) : HashTable :=
  let hash := hash_function transition.start_state transition.read_symbol
  table.set hash (transition :: table.getD hash [])

/-- The chain walk of `get_transition_from_hash`. -/
def find_in_chain (current_state : List Char) (read_symbol : Char) :
    List Transition → Option Transition
  | [] => none
  | t :: rest =>
    if my_strcmp t.start_state current_state = 0 ∧ t.read_symbol = read_symbol then some t
    else find_in_chain current_state read_symbol rest

/-- get_transition_from_hash: the first node of the bucket whose key matches, or
`none` for `NULL`. -/
def get_transition_from_hash (table : HashTable) (current_state : List Char)
    (read_symbol : Char) : Option Transition :=
  find_in_chain current_state read_symbol
    (table.getD (hash_function current_state read_symbol) [])

/-- The key test of the chain walk, on C strings: the start state is `state` and
the read symbol is `symbol`. -/
def key_matches (state : List Char) (symbol : Char) (t : Transition) : Bool :=
  decide (cstr t.start_state = cstr state ∧ t.read_symbol = symbol)

/-- The loop at the end of `parseMachineFile` that inserts `transitions[0]`,
`transitions[1]`, ... in this order. -/
def build_table (ts : List Transition) : HashTable :=
  ts.foldl add_to_hash_table empty_table

/-! ## Tape -/

/-- The globals of the tape.  `tape` holds the cells `tape[0 .. tape_size)`, so
that its length is `tape_size`; `tape_start` is the pointer `tape` as an offset
into `memory_pool`; `tape_head` and `memory_offset` are the globals of these
names. -/
structure TapeState where
  tape : List Char
  tape_start : Int
  tape_head : Int
  memory_offset : Int
deriving DecidableEq, Repr

/-- The global `tape_size`. -/
def TapeState.tape_size (s : TapeState) : Int := (s.tape.length : Int)

/-- The copy loop of `expand_tape`: `new_tape[left_offset + i] = tape[i]` for
`i`, `i + 1`, ... (`count` of them).  `mem` is the arena from the first cell of
the old tape on, and `dst` the place of `new_tape[left_offset]` in it; the loop
reads the memory it writes to. -/
def copy_cells (dst : Nat) : Nat → Nat → List Char → List Char
  | _, 0, mem => mem
  | i, count + 1, mem => copy_cells dst (i + 1) count (mem.set (dst + i) (mem.getD i NUL))

/-- expand_tape.  When the arena cannot supply the new block the function
returns with nothing changed.  Otherwise the new block starts at
`memory_offset`, that is `gap` bytes after the first cell of the old tape.
`mem` is the arena from that cell to the end of the new block after the fill
loop: the cells of the old tape that lie before the new block, then the new
block, blank (bytes between the end of the old tape and the new block are not
read and stand as `NUL`).  The copy loop works on this memory, and the new tape
is what the new block holds afterwards. -/
def expand_tape (s : TapeState) : TapeState :=
  let new_size : Int := s.tape_size * GROWTH_FACTOR
  match custom_malloc s.memory_offset new_size with
  | none => s
  | some offset =>
    let gap : Nat := (s.memory_offset - s.tape_start).toNat
    let old := s.tape.take gap ++ List.replicate (gap - s.tape.length) NUL
    let mem := old ++ List.replicate new_size.toNat BLANK
    let left_offset : Int := Int.tdiv (new_size - s.tape_size) 2
    let mem := copy_cells (gap + left_offset.toNat) 0 s.tape.length mem
    { tape := mem.drop gap
      tape_start := s.memory_offset
      tape_head := s.tape_head + left_offset
      memory_offset := offset }

/-- Lines 280-283 of `runMachine`: grow the tape once when the head is outside
of it. -/
def ensure_in_range (s : TapeState) : TapeState :=
  if s.tape_head ≥ s.tape_size ∨ s.tape_head < 0 then expand_tape s else s

/-! ## Reading the initial tape -/

/-- A store `tape[pos] = c`.  The tape is the window of `tape_size` cells; a
store outside of it lands in other bytes of the arena and leaves the cells of
the tape as they are. -/
def store (tape : List Char) (pos : Int) (c : Char) : List Char :=
  if 0 ≤ pos then tape.set pos.toNat c else tape

/-- The first loop of `readTape`: characters are taken from standard input up
to a newline or the end of input; `buffer` holds the `index` characters read so
far.  When the buffer is full a block of twice the size is requested and
`my_strcpy` moves the old contents over (the fresh block is zero-filled, so what
follows a `NUL` of the input is lost).  `none`: the arena is exhausted and
`readTape` returns without a tape. -/
def read_tape_line : List Char → List Char → Int → Int → Option (List Char × Int × Int)
  | [], buffer, buffer_size, memory_offset => some (buffer, buffer_size, memory_offset)
  | ch :: rest, buffer, buffer_size, memory_offset =>
    if ch = '\n' then some (buffer, buffer_size, memory_offset)
    else if (buffer.length : Int) ≥ buffer_size - 1 then
      match custom_malloc memory_offset (buffer_size * 2) with
      | none => none
      | some offset =>
        let copied := my_strcpy buffer
        let new_buffer := copied ++ List.replicate (buffer.length - copied.length) NUL
        read_tape_line rest (new_buffer ++ [ch]) (buffer_size * 2) offset
    else read_tape_line rest (buffer ++ [ch]) buffer_size memory_offset

/-- The last loop of `readTape`: `tape[start_pos + i]` receives `buffer[i]`, a
space being replaced by the blank; the second argument is `start_pos + i`. -/
def place_text : List Char → Int → List Char → List Char
  | tape, _, [] => tape
  | tape, pos, c :: cs =>
    place_text (store tape pos (if c = ' ' then BLANK else c)) (pos + 1) cs

/-- readTape, from the arena offset it starts with and the characters of
standard input.  The block requested for the tape has `buffer_size` bytes, while
the loops use `tape_size = INITIAL_TAPE_SIZE` cells: the cells past the block lie
in arena bytes that are not allocated yet, behind `memory_offset`. -/
def readTape (memory_offset : Int) (stdin : List Char) : Option TapeState :=
  match custom_malloc memory_offset 256 with
  | none => none
  | some offset =>
    match read_tape_line stdin [] 256 offset with
    | none => none
    | some (buffer, buffer_size, tape_start) =>
      match custom_malloc tape_start buffer_size with
      | none => none
      | some offset =>
        let tape := List.replicate INITIAL_TAPE_SIZE BLANK
        let index : Int := (buffer.length : Int)
        let start_pos : Int := Int.tdiv ((INITIAL_TAPE_SIZE : Int) - index) 2
        some { tape := place_text tape start_pos buffer
               tape_start := tape_start
               tape_head := start_pos
               memory_offset := offset }

/-! ## The engine -/

/-- The string literal "stop". -/
def STOP : List Char := ['s', 't', 'o', 'p']

/-- The string literal "start". -/
def START : List Char := ['s', 't', 'a', 'r', 't']

/-- The state of `runMachine`: the tape globals, the locals `current_state` and
`step_count`, and the memory around the cells of the tape, which an access
`tape[tape_head]` reaches when the head is outside `[0, tape_size)`: `below[k]`
is the byte `tape[-1 - k]`, `above[k]` the byte `tape[tape_size + k]`, and the
bytes beyond the two lists are zero.  (Outside `memory_pool` an access has no
defined behaviour in C; the lists stand for the bytes the program finds.  The
hash table is a value of its own, not bytes of this memory.) -/
structure Machine where
  ts : TapeState
  current_state : List Char
  step_count : Nat
  below : List Char
  above : List Char
deriving DecidableEq, Repr

/-- How `runMachine` leaves its loop: the loop condition fails, or one of the
two `break`s is taken. -/
inductive Outcome where
  | halted
  | stepLimit
  | noTransition
deriving DecidableEq, Repr

/-- The result of one pass through the loop body. -/
inductive Step where
  | next (m : Machine)
  | done (o : Outcome) (m : Machine)
deriving DecidableEq, Repr

/-- The read of a cell of the tape: `tape[tape_head]` with the head inside
`[0, tape_size)`, and `none` when the head is outside. -/
def tape_read (s : TapeState) : Option Char :=
  if 0 ≤ s.tape_head then s.tape[s.tape_head.toNat]? else none

/-- The head movement at the end of the loop body: `++` for '>', `--` for '<',
nothing for any other character. -/
def move_head (tape_head : Int) (direction : Char) : Int :=
  if direction = '>' then tape_head + 1
  else if direction = '<' then tape_head - 1
  else tape_head

/-- Whether the range check of lines 280-283 replaces the tape: the head is
outside the tape and the arena supplies the new block. -/
def grows (s : TapeState) : Bool :=
  decide (s.tape_head ≥ s.tape_size ∨ s.tape_head < 0) &&
    (custom_malloc s.memory_offset (s.tape_size * GROWTH_FACTOR)).isSome

/-- Lines 280-283 of `runMachine` on the whole state.  The tape globals change
as `ensure_in_range` says.  When the tape is replaced, the new block starts
`gap` bytes behind the first cell of the old tape and has twice its size, and
the loops of `expand_tape` write into the new block only: the bytes before the
new tape are then the first `gap` cells of the old tape, or all its cells and
the bytes from its end to the new block, and before those what was before the
old tape; the bytes behind the new tape are those that were `gap + tape_size`
bytes behind the old one. -/
def range_check (m : Machine) : Machine :=
  let gap : Nat := (m.ts.memory_offset - m.ts.tape_start).toNat
  let between : List Char := (List.range (gap - m.ts.tape.length)).map (peek m.above)
  { ts := ensure_in_range m.ts
    current_state := m.current_state
    step_count := m.step_count
    below := if grows m.ts then (m.ts.tape.take gap ++ between).reverse ++ m.below
             else m.below
    above := if grows m.ts then m.above.drop (gap + m.ts.tape.length) else m.above }

/-- The read `tape[tape_head]` of line 285: a cell of the tape, or the byte of
memory at this place when the head is outside the tape. -/
def cell_read (m : Machine) : Char :=
  if m.ts.tape_head < 0 then peek m.below (-1 - m.ts.tape_head).toNat
  else if m.ts.tape_head < m.ts.tape_size then peek m.ts.tape m.ts.tape_head.toNat
  else peek m.above (m.ts.tape_head - m.ts.tape_size).toNat

/-- The store `tape[tape_head] = c` of line 294, at the same place. -/
def cell_write (m : Machine) (c : Char) : Machine :=
  if m.ts.tape_head < 0 then
    { ts := m.ts, current_state := m.current_state, step_count := m.step_count
      below := poke m.below (-1 - m.ts.tape_head).toNat c, above := m.above }
  else if m.ts.tape_head < m.ts.tape_size then
    { ts := { tape := m.ts.tape.set m.ts.tape_head.toNat c
              tape_start := m.ts.tape_start
              tape_head := m.ts.tape_head
              memory_offset := m.ts.memory_offset }
      current_state := m.current_state, step_count := m.step_count
      below := m.below, above := m.above }
  else
    { ts := m.ts, current_state := m.current_state, step_count := m.step_count
      below := m.below, above := poke m.above (m.ts.tape_head - m.ts.tape_size).toNat c }

/-- The body of the `while` loop of `runMachine` (lines 274-306). -/
def run_step (table : HashTable) (m : Machine) : Step :=
  if m.step_count ≥ STEP_LIMIT then Step.done Outcome.stepLimit m
  else
    let m := range_check m
    match get_transition_from_hash table m.current_state (cell_read m) with
    | none => Step.done Outcome.noTransition m
    | some t =>
      let m := cell_write m t.write_symbol
      Step.next
        { ts := { tape := m.ts.tape
                  tape_start := m.ts.tape_start
                  tape_head := move_head m.ts.tape_head t.direction
                  memory_offset := m.ts.memory_offset }
          current_state := my_strcpy t.next_state
          step_count := m.step_count + 1
          below := m.below
          above := m.above }

/-- The `while` loop of `runMachine`; the first argument bounds the number of
passes, `none` meaning that the bound was too small. -/
def run_loop (table : HashTable) : Nat → Machine → Option (Outcome × Machine)
  | 0, _ => none
  | fuel + 1, m =>
    if my_strcmp m.current_state STOP = 0 then some (Outcome.halted, m)
    else
      match run_step table m with
      | Step.done o m1 => some (o, m1)
      | Step.next m1 => run_loop table fuel m1

/-- runMachine: the loop started in state "start" with `step_count = 0`, on the
tape `ts` and with the bytes `below` and `above` around it that the earlier
phases of the program have left in memory.  The result is the way the loop was
left and the state in which `printTape` is called. -/
def runMachine (table : HashTable) (ts : TapeState) (below above : List Char) :
    Option (Outcome × Machine) :=
  run_loop table (STEP_LIMIT + 1)
    { ts := ts, current_state := START, step_count := 0, below := below, above := above }

/-! ## The parser -/

/-- The ways in which the parser leaves the bounds of one of its arrays. -/
inductive Fault where
  | name_overflow
  | table_overflow
  | buffer_overrun
deriving DecidableEq, Repr

/-- The loop `while (line[i] != ',') name[idx++] = line[i++];` followed by
`name[idx] = 0`, for `name` one of the arrays `start_state`, `next_state` of
`MAX_STATE_NAME` bytes.  The first argument is `MAX_STATE_NAME - idx`: when it is
zero the next store, of a character or of the terminator, is at
`name[MAX_STATE_NAME]`.  The result is the name and the index of the comma. -/
def scan_name (line : List Char) : Nat → Nat → List Char → Except Fault (List Char × Nat)
  | 0, _, _ => Except.error Fault.name_overflow
  | room + 1, i, name =>
    if peek line i = ',' then Except.ok (name, i)
    else scan_name line room (i + 1) (name ++ [peek line i])

/-- Lines 202-232 of `parseMachineFile`: the fixed-offset reads of one record
line.  `line` is the memory of the line buffer.  The result is the transition
and the last value of `i`, the largest index of `line` that was read. -/
def parse_record (line : List Char) : Except Fault (Transition × Nat) :=
  match scan_name line MAX_STATE_NAME 1 [] with
  | Except.error e => Except.error e
  | Except.ok (start_state, i) =>
    let i := i + 2
    let read_symbol := peek line i
    let i := i + 7
    match scan_name line MAX_STATE_NAME i [] with
    | Except.error e => Except.error e
    | Except.ok (next_state, i) =>
      let i := i + 2
      let write_symbol := peek line i
      let i := i + 3
      let direction := peek line i
      Except.ok
        ({ start_state := my_strcpy start_state
           read_symbol := read_symbol
           next_state := my_strcpy next_state
           write_symbol := write_symbol
           direction := direction }, i)

/-- The locals of `parseMachineFile` and the array `transitions`.  `buffer` is
`buffer[0 .. buffer_index)`, `line` the bytes of the line buffer written so far,
`transitions` is `transitions[0 .. transition_index)`.  The line buffer is the
last block of the arena while the file is read, so the bytes behind it are
zero and belong to nothing else; `line` is not cut at `BUFFER_SIZE`. -/
structure Parser where
  buffer : List Char
  buffer_size : Nat
  line : List Char
  line_index : Nat
  currentLine : Nat
  transitions : List Transition
deriving DecidableEq, Repr

/-- The state in which `parseMachineFile` enters its loop. -/
def Parser.init : Parser :=
  { buffer := [], buffer_size := BUFFER_SIZE, line := [], line_index := 0,
    currentLine := 0, transitions := [] }

/-- The loop of lines 185-188: bytes of the buffer are appended to the line up
to a newline or the end of the buffer.  The result is the line memory, the new
`line_index` and the bytes `buffer[i ..]` not yet looked at. -/
def copy_line : List Char → List Char → Nat → List Char × Nat × List Char
  | [], line, line_index => (line, line_index, [])
  | c :: cs, line, line_index =>
    if c = '\n' then (line, line_index, c :: cs)
    else copy_line cs (poke line line_index c) (line_index + 1)

/-- The loop `while (buffer_index > 0)` of lines 181-255.  The first argument
bounds the number of passes; each pass that does not leave the loop takes at
least the newline out of the buffer, so `buffer_index` passes are enough.  When
the buffer is full without a newline `buffer_size` is doubled; the block that
is requested there is never used, and `buffer` stays the block it was. -/
def process_buffer : Nat → Parser → Except Fault Parser
  | 0, p => Except.ok p
  | fuel + 1, p =>
    if p.buffer = [] then Except.ok p
    else
      match copy_line p.buffer p.line p.line_index with
      | (line, line_index, _ :: rest) =>
        let line := poke line line_index NUL
        if p.currentLine > 2 then
          match parse_record line with
          | Except.error e => Except.error e
          | Except.ok (t, _) =>
            if p.transitions.length ≥ HASH_TABLE_SIZE then Except.error Fault.table_overflow
            else
              process_buffer fuel
                { buffer := rest, buffer_size := p.buffer_size, line := line, line_index := 0,
                  currentLine := p.currentLine + 1, transitions := p.transitions ++ [t] }
        else
          process_buffer fuel
            { buffer := rest, buffer_size := p.buffer_size, line := line, line_index := 0,
              currentLine := p.currentLine + 1, transitions := p.transitions }
      | (line, line_index, []) =>
        Except.ok
          { buffer := p.buffer
            buffer_size :=
              if p.buffer.length = p.buffer_size then p.buffer_size * 2 else p.buffer_size
            line := line, line_index := line_index,
            currentLine := p.currentLine, transitions := p.transitions }

/-- One pass through the outer loop (lines 177-256) for a `read` that returned
`chunk`.  The block of `buffer` has `BUFFER_SIZE` bytes and is never replaced,
so a chunk that ends beyond it is written outside the block. -/
def feed (p : Parser) (chunk : List Char) : Except Fault Parser :=
  if p.buffer.length + chunk.length > BUFFER_SIZE then Except.error Fault.buffer_overrun
  else
    process_buffer (p.buffer.length + chunk.length) { p with buffer := p.buffer ++ chunk }

/-- The outer loop of `parseMachineFile`.  `file` is what is left of the file;
`reads` lists how many bytes the successive calls of `read` deliver at most, and
once it is used up every call delivers all that was asked for.  A call that
delivers nothing ends the loop.  The first argument bounds the number of
passes; each pass takes at least one byte from the file. -/
def parse_loop : Nat → List Nat → Parser → List Char → Except Fault Parser
  | 0, _, p, _ => Except.ok p
  | fuel + 1, reads, p, file =>
    let count := p.buffer_size - p.buffer.length
    let delivered := min (reads.headD count) count
    let chunk := file.take delivered
    if chunk = [] then Except.ok p
    else
      match feed p chunk with
      | Except.error e => Except.error e
      | Except.ok p1 => parse_loop fuel reads.tail p1 (file.drop delivered)

/-- parseMachineFile: the transitions stored in `transitions`, in the order of
their indices, for a file whose contents arrive as `reads` prescribes. -/
def parseMachineFile (reads : List Nat) (file : List Char) : Except Fault (List Transition) :=
  match parse_loop file.length reads Parser.init file with
  | Except.error e => Except.error e
  | Except.ok p => Except.ok p.transitions

/-- The parser on a regular file: every `read` delivers all that was asked
for. -/
def parseFile (file : List Char) : Except Fault (List Transition) :=
  parseMachineFile [] file

/-! ## The grammar of record lines

These definitions describe inputs: the record line the grammar
`(S1, R) -> (S2, W) D` prescribes for five given fields, and a program text made
of three header lines and such record lines. -/

/-- The record line `(S1, R) -> (S2, W) D` for the five fields of `t`, without
its newline. -/
def record_line (t : Transition) : List Char :=
  '(' :: t.start_state ++ [',', ' ', t.read_symbol, ')', ' ', '-', '>', ' ', '(']
    ++ t.next_state ++ [',', ' ', t.write_symbol, ')', ' ', t.direction]

/-- The record lines of `ts`, each followed by a newline. -/
def record_lines : List Transition → List Char
  | [] => []
  | t :: ts => record_line t ++ '\n' :: record_lines ts

/-- A program text: three header lines and the record lines of `ts`. -/
def program_text (h1 h2 h3 : List Char) (ts : List Transition) : List Char :=
  h1 ++ '\n' :: (h2 ++ '\n' :: (h3 ++ '\n' :: record_lines ts))

/-- A state name that fits the array of `MAX_STATE_NAME` bytes with its
terminator and contains no comma, newline or `NUL`. -/
def name_ok (s : List Char) : Prop :=
  s.length < MAX_STATE_NAME ∧ ',' ∉ s ∧ '\n' ∉ s ∧ NUL ∉ s

/-- A record whose line is one line of text: both names are as in `name_ok` and
none of the three single characters is a newline. -/
def record_ok (t : Transition) : Prop :=
  name_ok t.start_state ∧ name_ok t.next_state ∧
    t.read_symbol ≠ '\n' ∧ t.write_symbol ≠ '\n' ∧ t.direction ≠ '\n'

/-- Equality of results of the parser is decidable. -/
instance instDecidableEqExcept {ε α : Type} [DecidableEq ε] [DecidableEq α] :
    DecidableEq (Except ε α)
  | Except.ok a, Except.ok b =>
    if h : a = b then isTrue (by rw [h]) else isFalse (fun h1 => h (Except.ok.inj h1))
  | Except.error a, Except.error b =>
    if h : a = b then isTrue (by rw [h]) else isFalse (fun h1 => h (Except.error.inj h1))
  | Except.ok _, Except.error _ => isFalse (fun h => Except.noConfusion h)
  | Except.error _, Except.ok _ => isFalse (fun h => Except.noConfusion h)

/-! ## Output -/

/-- The loop of `printTape`: the cells other than '_' are written, in the order
of their indices. -/
def print_cells : List Char → List Char
  | [] => []
  | c :: cs => if c ≠ '_' then c :: print_cells cs else print_cells cs

/-- printTape: the characters written to standard output, the cells of the loop
and the newline. -/
def printTape (s : TapeState) : List Char := print_cells s.tape ++ ['\n']

/-! ## The transitions of a run -/

/-- The transition that a pass through the loop body applies: the result of
the lookup of lines 285-287, when the pass gets there. -/
def applied (table : HashTable) (m : Machine) : Option Transition :=
  if m.step_count ≥ STEP_LIMIT then none
  else get_transition_from_hash table m.current_state (cell_read (range_check m))

/-- The transitions that the loop of `runMachine` applies, in the order in
which it applies them; the loop is that of `run_loop`. -/
def run_trace (table : HashTable) : Nat → Machine → List Transition
  | 0, _ => []
  | fuel + 1, m =>
    if my_strcmp m.current_state STOP = 0 then []
    else
      match run_step table m with
      | Step.done _ _ => []
      | Step.next m1 => (applied table m).toList ++ run_trace table fuel m1

/-- The accesses `tape[tape_head]` of the loop of `runMachine`, in the order in
which it makes them: each pass that gets to line 285 reads there, with the
values of `tape_head` and `tape_size` that the range check has left. -/
def run_accesses (table : HashTable) : Nat → Machine → List (Int × Int)
  | 0, _ => []
  | fuel + 1, m =>
    if my_strcmp m.current_state STOP = 0 then []
    else if m.step_count ≥ STEP_LIMIT then []
    else
      ((range_check m).ts.tape_head, (range_check m).ts.tape_size) ::
        match run_step table m with
        | Step.done _ _ => []
        | Step.next m1 => run_accesses table fuel m1

/-! ## The rules of scenario C -/

/-- The rule `("start", c) -> ("start", c, Right)`. -/
def right_rule (c : Char) : Transition :=
  { start_state := START, read_symbol := c, next_state := START, write_symbol := c,
    direction := '>' }

/-- What holds of the machine at the top of every pass of a run of scenario C:
the state is "start", every symbol of the tape has its rule, the head is at
least the number of steps made and at most the size, the size is at most twice
the number of steps once the head has reached it (`2 * head - size ≤ 2 * steps`),
and the arena has been used up to `bound + 2 * size` at most. -/
def right_inv (rules : List Transition) (bound : Int) (m : Machine) : Prop :=
  m.current_state = START ∧
  (∀ c ∈ m.ts.tape, right_rule c ∈ rules) ∧
  (m.step_count : Int) ≤ m.ts.tape_head ∧
  m.ts.tape_head ≤ (m.ts.tape.length : Int) ∧
  2 * m.ts.tape_head - (m.ts.tape.length : Int) ≤ 2 * (m.step_count : Int) ∧
  m.ts.memory_offset ≤ bound + 2 * (m.ts.tape.length : Int) ∧
  1 ≤ m.ts.tape.length

/-! ## Texts made of complete lines -/

/-- A text made of complete lines: it is empty or its last character is the
newline. -/
def complete_lines (text : List Char) : Prop := text = [] ∨ text.getLast? = some '\n'

instance instDecidableCompleteLines (text : List Char) : Decidable (complete_lines text) :=
  inferInstanceAs (Decidable (text = [] ∨ text.getLast? = some '\n'))

/-! ## The tape: growth -/

theorem copy_cells_length (dst : Nat) : ∀ (count i : Nat) (mem : List Char),
    (copy_cells dst i count mem).length = mem.length := by
  intro count
  induction count with
  | zero => intro i mem; rfl
  | succ count ih => intro i mem; rw [copy_cells, ih, List.length_set]

/-- The copy loop when the cells it reads lie before the cells it writes. -/
theorem copy_cells_get (dst : Nat) : ∀ (count i : Nat) (mem : List Char) (j : Nat),
    i + count ≤ dst → dst + i + count ≤ mem.length →
    (copy_cells dst i count mem)[j]? =
      if dst + i ≤ j ∧ j < dst + i + count then mem[j - dst]? else mem[j]? := by
  intro count
  induction count with
  | zero =>
    intro i mem j _ _
    rw [copy_cells, if_neg (by omega)]
  | succ count ih =>
    intro i mem j h1 h2
    rw [copy_cells, ih (i + 1) _ j (by omega) (by rw [List.length_set]; omega)]
    by_cases hj : dst + (i + 1) ≤ j ∧ j < dst + (i + 1) + count
    · rw [if_pos hj, if_pos (by omega), List.getElem?_set, if_neg (by omega)]
    · rw [if_neg hj]
      by_cases hji : j = dst + i
      · subst hji
        rw [if_pos (by omega), List.getElem?_set, if_pos rfl, if_pos (by omega)]
        have hi : i < mem.length := by omega
        rw [show dst + i - dst = i from by omega, List.getD_eq_getElem?_getD,
          List.getElem?_eq_getElem hi]
        rfl
      · rw [if_neg (by omega), List.getElem?_set, if_neg (by omega)]

theorem custom_malloc_of_room (s : TapeState)
    (hroom : s.memory_offset + 2 * (s.tape.length : Int) ≤ MEMORY_POOL_SIZE) :
    custom_malloc s.memory_offset (s.tape_size * GROWTH_FACTOR)
      = some (s.memory_offset + 2 * (s.tape.length : Int)) := by
  unfold custom_malloc TapeState.tape_size GROWTH_FACTOR
  rw [if_neg (by omega)]
  congr 1; omega

/-- The state after a growth that found room in the arena. -/
theorem expand_tape_of_room (s : TapeState)
    (hroom : s.memory_offset + 2 * (s.tape.length : Int) ≤ MEMORY_POOL_SIZE) :
    expand_tape s =
      { tape := (copy_cells ((s.memory_offset - s.tape_start).toNat + s.tape.length / 2) 0
            s.tape.length
            (s.tape.take (s.memory_offset - s.tape_start).toNat
              ++ List.replicate ((s.memory_offset - s.tape_start).toNat - s.tape.length) NUL
              ++ List.replicate (2 * s.tape.length) BLANK)).drop
            (s.memory_offset - s.tape_start).toNat
        tape_start := s.memory_offset
        tape_head := s.tape_head + ((s.tape.length / 2 : Nat) : Int)
        memory_offset := s.memory_offset + 2 * (s.tape.length : Int) } := by
  have h2 : (s.tape_size * GROWTH_FACTOR).toNat = 2 * s.tape.length := by
    unfold TapeState.tape_size GROWTH_FACTOR; omega
  have h3 : Int.tdiv (s.tape_size * GROWTH_FACTOR - s.tape_size) 2
      = ((s.tape.length / 2 : Nat) : Int) := by
    unfold TapeState.tape_size GROWTH_FACTOR
    rw [Int.tdiv_eq_ediv (by omega) (by omega)]
    omega
  unfold expand_tape
  simp only [custom_malloc_of_room s hroom, h2, h3, Int.toNat_ofNat]

theorem expand_tape_of_full (s : TapeState)
    (hfull : s.memory_offset + 2 * (s.tape.length : Int) > MEMORY_POOL_SIZE) :
    expand_tape s = s := by
  have h1 : custom_malloc s.memory_offset (s.tape_size * GROWTH_FACTOR) = none := by
    unfold custom_malloc TapeState.tape_size GROWTH_FACTOR
    rw [if_pos (by omega)]
  unfold expand_tape
  simp only [h1]

/-- Size and head after a growth that found room, wherever the old tape lies. -/
theorem expand_tape_size_head (s : TapeState)
    (hroom : s.memory_offset + 2 * (s.tape.length : Int) ≤ MEMORY_POOL_SIZE) :
    (expand_tape s).tape.length = 2 * s.tape.length ∧
    (expand_tape s).tape_head = s.tape_head + ((s.tape.length / 2 : Nat) : Int) := by
  rw [expand_tape_of_room s hroom]
  refine ⟨?_, rfl⟩
  simp only [List.length_drop, copy_cells_length, List.length_append, List.length_take,
    List.length_replicate]
  omega

theorem tape_read_eq (s : TapeState) (i : Nat) (h : s.tape_head = (i : Int)) :
    tape_read s = s.tape[i]? := by
  unfold tape_read
  rw [if_pos (by omega)]
  congr 1
  omega

/-- Growth of a tape that lies in its own block.  When the arena still has
room for the new block (`memory_offset + 2 * n ≤ MEMORY_POOL_SIZE`) and the `n`
cells of the tape lie in bytes that are allocated
(`tape_start + n ≤ memory_offset`), `expand_tape` turns the tape into one of size
`2 * n` in which cell `n / 2 + i` holds the old cell `i` for every `i < n`, every
other cell holds the blank, and the head has moved by `n / 2`; so the symbol
under an in-range head is the same before and after. -/
theorem expand_tape_spec (s : TapeState)
    (hroom : s.memory_offset + 2 * (s.tape.length : Int) ≤ MEMORY_POOL_SIZE)
    (hblock : s.tape_start + (s.tape.length : Int) ≤ s.memory_offset) :
    (expand_tape s).tape.length = 2 * s.tape.length ∧
    (∀ i, i < s.tape.length → (expand_tape s).tape[s.tape.length / 2 + i]? = s.tape[i]?) ∧
    (∀ j, j < 2 * s.tape.length →
      (j < s.tape.length / 2 ∨ s.tape.length / 2 + s.tape.length ≤ j) →
      (expand_tape s).tape[j]? = some BLANK) ∧
    (expand_tape s).tape_head = s.tape_head + ((s.tape.length / 2 : Nat) : Int) ∧
    (0 ≤ s.tape_head → s.tape_head < s.tape_size →
      tape_read (expand_tape s) = tape_read s ∧ tape_read s ≠ none) := by
  obtain ⟨gap, hgap⟩ : ∃ gap : Nat, (s.memory_offset - s.tape_start).toNat = gap := ⟨_, rfl⟩
  have hn : s.tape.length ≤ gap := by omega
  have hcell : ∀ j, j < 2 * s.tape.length → (expand_tape s).tape[j]? =
      if s.tape.length / 2 ≤ j ∧ j < s.tape.length / 2 + s.tape.length
      then s.tape[j - s.tape.length / 2]? else some BLANK := by
    intro j hj
    rw [expand_tape_of_room s hroom]
    simp only [hgap]
    have hold : (s.tape ++ List.replicate (gap - s.tape.length) NUL).length = gap := by
      rw [List.length_append, List.length_replicate]
      omega
    have hmem : (s.tape ++ List.replicate (gap - s.tape.length) NUL
        ++ List.replicate (2 * s.tape.length) BLANK).length = gap + 2 * s.tape.length := by
      rw [List.length_append, hold, List.length_replicate]
    rw [List.take_of_length_le hn, List.getElem?_drop,
      copy_cells_get _ _ _ _ _ (by omega) (by rw [hmem]; omega)]
    by_cases hin : s.tape.length / 2 ≤ j ∧ j < s.tape.length / 2 + s.tape.length
    · rw [if_pos hin, if_pos (by omega), List.append_assoc,
        List.getElem?_append_left (by omega)]
      congr 1
      omega
    · rw [if_neg hin, if_neg (by omega), List.getElem?_append_right (by rw [hold]; omega),
        hold, List.getElem?_replicate, if_pos (by omega)]
  have hsh := expand_tape_size_head s hroom
  refine ⟨hsh.1, ?_, ?_, hsh.2, ?_⟩
  · intro i hi
    rw [hcell _ (by omega), if_pos (by omega)]
    congr 1; omega
  · intro j hj hout
    rw [hcell _ hj, if_neg (by omega)]
  · intro h0 h1
    unfold TapeState.tape_size at h1
    obtain ⟨i, hi⟩ : ∃ i : Nat, s.tape_head = (i : Int) := ⟨s.tape_head.toNat, by omega⟩
    have hlt : i < s.tape.length := by omega
    rw [tape_read_eq s i hi,
      tape_read_eq _ (s.tape.length / 2 + i) (by rw [hsh.2, hi]; push_cast; omega)]
    constructor
    · rw [hcell _ (by omega), if_pos (by omega)]
      congr 1; omega
    · simp [hlt]

/-- An instance of `expand_tape_spec`: a tape of three cells at the start of an
arena in which three bytes are allocated. -/
theorem expand_tape_spec_witness :
    ((3 : Int) + 2 * ((['a', 'b', 'c'] : List Char).length : Int) ≤ MEMORY_POOL_SIZE ∧
      (0 : Int) + ((['a', 'b', 'c'] : List Char).length : Int) ≤ 3) ∧
    (expand_tape { tape := ['a', 'b', 'c'], tape_start := 0, tape_head := 1,
                   memory_offset := 3 }).tape.length = 2 * 3 :=
  ⟨by decide,
   (expand_tape_spec { tape := ['a', 'b', 'c'], tape_start := 0, tape_head := 1,
                       memory_offset := 3 } (by decide) (by decide)).1⟩

/-- The guard of `expand_tape`: with 4096 bytes left in the arena a tape of size
4096 is not grown; `expand_tape` returns with size and head unchanged. -/
theorem expand_tape_arena_full :
    (expand_tape { tape := List.replicate 4096 '_', tape_start := 33546240, tape_head := 4096,
                   memory_offset := 33550336 }).tape.length = 4096 ∧
    (expand_tape { tape := List.replicate 4096 '_', tape_start := 33546240, tape_head := 4096,
                   memory_offset := 33550336 }).tape_head = 4096 := by
  rw [expand_tape_of_full _ (by simp only [List.length_replicate]; decide)]
  simp only [List.length_replicate, and_self]

/-- When the block of the old tape is shorter than the tape, the new block
starts inside the tape, and the fill loop erases the cells that lie there: a
tape of four cells in a block of two bytes loses its last two cells. -/
theorem expand_tape_overlap :
    (expand_tape { tape := ['a', 'b', 'c', 'd'], tape_start := 0, tape_head := 1,
                   memory_offset := 2 }).tape
      = ['_', '_', 'a', 'b', '_', '_', '_', '_'] := by
  decide

/-! ## The tape: the range check -/

theorem ensure_in_range_of_in_range (s : TapeState)
    (h : 0 ≤ s.tape_head ∧ s.tape_head < s.tape_size) : ensure_in_range s = s := by
  unfold ensure_in_range
  rw [if_neg (by omega)]

/-- C2, as amended: for a tape of size at least 2, as every tape of a run is,
with the head between -1 and the size, and an arena that has room for the new
block, one range check leaves `0 ≤ head < size`, a second one changes nothing,
and a range check with the head already in range changes nothing. -/
theorem ensure_in_range_idempotent (s : TapeState)
    (hsize : 2 ≤ s.tape.length) (hlo : -1 ≤ s.tape_head)
    (hhi : s.tape_head ≤ (s.tape.length : Int))
    (hroom : s.memory_offset + 2 * (s.tape.length : Int) ≤ MEMORY_POOL_SIZE) :
    (0 ≤ (ensure_in_range s).tape_head ∧
      (ensure_in_range s).tape_head < (ensure_in_range s).tape_size) ∧
    ensure_in_range (ensure_in_range s) = ensure_in_range s ∧
    (0 ≤ s.tape_head ∧ s.tape_head < s.tape_size → ensure_in_range s = s) := by
  have hin : 0 ≤ (ensure_in_range s).tape_head ∧
      (ensure_in_range s).tape_head < (ensure_in_range s).tape_size := by
    by_cases h : s.tape_head ≥ s.tape_size ∨ s.tape_head < 0
    · have hs := expand_tape_size_head s hroom
      unfold ensure_in_range
      rw [if_pos h]
      unfold TapeState.tape_size at h ⊢
      rw [hs.1, hs.2]
      omega
    · unfold ensure_in_range
      rw [if_neg h]
      omega
  exact ⟨hin, ensure_in_range_of_in_range _ hin, ensure_in_range_of_in_range s⟩

/-- A witness for C2 as amended: the head one cell to the left of a tape of two
cells. -/
theorem ensure_in_range_idempotent_witness :
    (2 ≤ ['a', 'b'].length ∧ (-1 : Int) ≤ -1 ∧ (-1 : Int) ≤ (['a', 'b'].length : Int) ∧
      (2 : Int) + 2 * (['a', 'b'].length : Int) ≤ MEMORY_POOL_SIZE) ∧
    ensure_in_range (ensure_in_range
        { tape := ['a', 'b'], tape_start := 0, tape_head := -1, memory_offset := 2 })
      = ensure_in_range
        { tape := ['a', 'b'], tape_start := 0, tape_head := -1, memory_offset := 2 } :=
  ⟨by decide,
   (ensure_in_range_idempotent
      { tape := ['a', 'b'], tape_start := 0, tape_head := -1, memory_offset := 2 }
      (by decide) (by decide) (by decide) (by decide)).2.1⟩

/-- C2 as stated fails: a tape of 2097152 cells, the size after nine growths,
with the head at -1 and 8176 bytes left in the arena.  `expand_tape` cannot get
its block of 4194304 bytes and returns with nothing changed, so after the range
check the head is still -1, outside the tape. -/
theorem ensure_in_range_arena_full :
    (ensure_in_range { tape := List.replicate 2097152 '_', tape_start := 31449104,
                       tape_head := -1, memory_offset := 33546256 }).tape_head = -1 ∧
    (ensure_in_range { tape := List.replicate 2097152 '_', tape_start := 31449104,
                       tape_head := -1, memory_offset := 33546256 }).tape.length
      = 2097152 := by
  unfold ensure_in_range
  rw [if_pos (Or.inr (by decide)),
    expand_tape_of_full _ (by simp only [List.length_replicate]; decide)]
  simp only [List.length_replicate, and_self]

/-- The range check on a tape of size 1, a size that no tape of a run has: with
the head at -1 the offset added by `expand_tape` is 0, and after the range check
the head is still -1. -/
theorem ensure_in_range_size_one :
    (ensure_in_range
      { tape := ['a'], tape_start := 0, tape_head := -1, memory_offset := 1 }).tape_head = -1 ∧
    (ensure_in_range
      { tape := ['a'], tape_start := 0, tape_head := -1, memory_offset := 1 }).tape.length = 2 := by
  decide

/-! ## Strings and the hash table -/

theorem NUL_toNat : NUL.toNat = 0 := by decide

theorem char_eq_of_toNat_eq {a b : Char} (h : a.toNat = b.toNat) : a = b := by
  rw [← Char.ofNat_toNat a, ← Char.ofNat_toNat b, h]

theorem char_sub_eq_zero_iff (a b : Char) : (a.toNat : Int) - (b.toNat : Int) = 0 ↔ a = b := by
  constructor
  · intro h
    exact char_eq_of_toNat_eq (by omega)
  · intro h
    rw [h]
    omega

theorem cstr_eq_nil_iff (b : List Char) : cstr b = [] ↔ b.headD NUL = NUL := by
  cases b with
  | nil => simp [cstr]
  | cons c cs =>
    by_cases h : c = NUL
    · simp [cstr, h]
    · simp [cstr, h]

/-- The result of `my_strcmp` is zero exactly when the two C strings are equal. -/
theorem my_strcmp_eq_zero_iff (a : List Char) : ∀ b : List Char,
    my_strcmp a b = 0 ↔ cstr a = cstr b := by
  induction a with
  | nil =>
    intro b
    have h := char_sub_eq_zero_iff NUL (b.headD NUL)
    rw [NUL_toNat] at h
    simp only [my_strcmp, cstr]
    rw [show ((0 : Nat) : Int) = 0 from rfl] at h
    rw [h, eq_comm, ← cstr_eq_nil_iff, eq_comm]
  | cons c cs ih =>
    intro b
    rw [my_strcmp]
    by_cases hc : c = NUL
    · have h1 : ¬ (c ≠ NUL ∧ c = b.headD NUL) := fun h => h.1 hc
      rw [if_neg h1, char_sub_eq_zero_iff]
      simp only [cstr, hc, if_true]
      rw [eq_comm (a := ([] : List Char)), cstr_eq_nil_iff, eq_comm]
    · cases b with
      | nil =>
        have h1 : ¬ (c ≠ NUL ∧ c = ([] : List Char).headD NUL) := fun h => hc h.2
        rw [if_neg h1, char_sub_eq_zero_iff]
        simp [cstr, hc]
      | cons d ds =>
        by_cases hd : c = d
        · subst hd
          have h1 : c ≠ NUL ∧ c = (c :: ds).headD NUL := ⟨hc, rfl⟩
          rw [if_pos h1]
          simp only [List.tail_cons, cstr, hc, if_false]
          rw [ih ds]
          simp
        · have h1 : ¬ (c ≠ NUL ∧ c = (d :: ds).headD NUL) := fun h => hd h.2
          rw [if_neg h1, char_sub_eq_zero_iff]
          simp only [List.headD_cons, cstr, hc, if_false]
          constructor
          · intro h; exact absurd h hd
          · intro h
            by_cases hd0 : d = NUL
            · simp [hd0] at h
            · simp only [hd0, if_false] at h
              exact absurd (List.cons.inj h).1 hd

theorem hash_loop_cstr (s : List Char) : ∀ h : Nat, hash_loop h (cstr s) = hash_loop h s := by
  induction s with
  | nil => intro h; rfl
  | cons c cs ih =>
    intro h
    by_cases hc : c = NUL
    · simp [cstr, hash_loop, hc]
    · simp [cstr, hash_loop, hc, ih]

theorem hash_function_congr {a b : List Char} (h : cstr a = cstr b) (c : Char) :
    hash_function a c = hash_function b c := by
  unfold hash_function
  rw [← hash_loop_cstr a, ← hash_loop_cstr b, h]

theorem hash_function_lt (s : List Char) (c : Char) : hash_function s c < HASH_TABLE_SIZE := by
  have h : hash_function s c ≤ HASH_TABLE_SIZE - 1 := Nat.and_le_right
  unfold HASH_TABLE_SIZE at h ⊢
  omega

theorem find_in_chain_eq_find (state : List Char) (symbol : Char) (chain : List Transition) :
    find_in_chain state symbol chain = chain.find? (key_matches state symbol) := by
  induction chain with
  | nil => rfl
  | cons t rest ih =>
    rw [find_in_chain, List.find?_cons]
    by_cases h : cstr t.start_state = cstr state ∧ t.read_symbol = symbol
    · have h1 : my_strcmp t.start_state state = 0 ∧ t.read_symbol = symbol :=
        ⟨(my_strcmp_eq_zero_iff _ _).2 h.1, h.2⟩
      rw [if_pos h1]
      simp [key_matches, h]
    · have h1 : ¬ (my_strcmp t.start_state state = 0 ∧ t.read_symbol = symbol) :=
        fun h2 => h ⟨(my_strcmp_eq_zero_iff _ _).1 h2.1, h2.2⟩
      rw [if_neg h1, ih]
      simp [key_matches, h]

theorem add_to_hash_table_length (table : HashTable) (t : Transition) :
    (add_to_hash_table table t).length = table.length := by
  simp [add_to_hash_table]

theorem add_to_hash_table_getD (table : HashTable) (t : Transition) (h : Nat)
    (hh : h < table.length) :
    (add_to_hash_table table t).getD h [] =
      if hash_function t.start_state t.read_symbol = h then t :: table.getD h []
      else table.getD h [] := by
  unfold add_to_hash_table
  simp only [List.getD_eq_getElem?_getD, List.getElem?_set]
  by_cases h1 : hash_function t.start_state t.read_symbol = h
  · subst h1
    simp [hh]
  · simp [h1]

theorem foldl_add_length (ts : List Transition) : ∀ table : HashTable,
    (ts.foldl add_to_hash_table table).length = table.length := by
  induction ts with
  | nil => intro table; rfl
  | cons t rest ih => intro table; rw [List.foldl_cons, ih, add_to_hash_table_length]

/-- Every bucket holds the inserted transitions that hash to it, the last
inserted first. -/
theorem foldl_add_getD (ts : List Transition) : ∀ (table : HashTable) (h : Nat),
    h < table.length →
    (ts.foldl add_to_hash_table table).getD h [] =
      (ts.filter (fun t => decide (hash_function t.start_state t.read_symbol = h))).reverse
        ++ table.getD h [] := by
  induction ts with
  | nil => intro table h _; simp
  | cons t rest ih =>
    intro table h hh
    rw [List.foldl_cons, ih _ h (by rw [add_to_hash_table_length]; exact hh),
      add_to_hash_table_getD table t h hh]
    by_cases h1 : hash_function t.start_state t.read_symbol = h
    · simp [h1]
    · simp [h1]

theorem find_filter_of_imp {α : Type} (p q : α → Bool) (hpq : ∀ a, p a = true → q a = true) :
    ∀ l : List α, (l.filter q).find? p = l.find? p := by
  intro l
  induction l with
  | nil => rfl
  | cons a rest ih =>
    by_cases hq : q a = true
    · rw [List.filter_cons_of_pos hq, List.find?_cons, List.find?_cons, ih]
    · have hp : p a = false := by
        cases hpa : p a with
        | false => rfl
        | true => exact absurd (hpq a hpa) hq
      rw [List.filter_cons_of_neg hq, List.find?_cons, hp, ih]

theorem find_reverse_filter {α : Type} (p q : α → Bool) (hpq : ∀ a, p a = true → q a = true)
    (l : List α) : (l.filter q).reverse.find? p = l.reverse.find? p := by
  rw [← List.filter_reverse, find_filter_of_imp p q hpq]

/-- Lookup in the table built from `ts` is the search for the key through `ts`
from its last element to its first. -/
theorem lookup_build_table (ts : List Transition) (state : List Char) (symbol : Char) :
    get_transition_from_hash (build_table ts) state symbol
      = ts.reverse.find? (key_matches state symbol) := by
  unfold get_transition_from_hash build_table
  rw [foldl_add_getD ts empty_table _ (by
    unfold empty_table
    rw [List.length_replicate]
    exact hash_function_lt state symbol)]
  have hempty : empty_table.getD (hash_function state symbol) [] = [] := by
    unfold empty_table
    simp only [List.getD_eq_getElem?_getD, List.getElem?_replicate]
    split <;> rfl
  rw [hempty, List.append_nil, find_in_chain_eq_find]
  apply find_reverse_filter
  intro t ht
  simp only [key_matches, decide_eq_true_eq] at ht
  simp only [decide_eq_true_eq]
  rw [← ht.2]
  exact hash_function_congr ht.1 _

/-- C4: in the table built by inserting `ts`, lookup of `(state, symbol)`
returns a transition exactly when some inserted transition has this start state
(as a C string) and this symbol, and whatever it returns is an inserted
transition with exactly this key. -/
theorem lookup_exact (ts : List Transition) (state : List Char) (symbol : Char) :
    ((∃ t, get_transition_from_hash (build_table ts) state symbol = some t) ↔
      ∃ t ∈ ts, cstr t.start_state = cstr state ∧ t.read_symbol = symbol) ∧
    (∀ t, get_transition_from_hash (build_table ts) state symbol = some t →
      t ∈ ts ∧ cstr t.start_state = cstr state ∧ t.read_symbol = symbol) := by
  rw [lookup_build_table]
  have hsound : ∀ t, ts.reverse.find? (key_matches state symbol) = some t →
      t ∈ ts ∧ cstr t.start_state = cstr state ∧ t.read_symbol = symbol := by
    intro t ht
    have h1 := List.mem_of_find?_eq_some ht
    have h2 := List.find?_some ht
    simp only [key_matches, decide_eq_true_eq] at h2
    exact ⟨List.mem_reverse.1 h1, h2⟩
  refine ⟨⟨?_, ?_⟩, hsound⟩
  · rintro ⟨t, ht⟩
    exact ⟨t, (hsound t ht).1, (hsound t ht).2⟩
  · rintro ⟨t, hmem, hkey⟩
    cases hfind : ts.reverse.find? (key_matches state symbol) with
    | some u => exact ⟨u, rfl⟩
    | none =>
      rw [List.find?_eq_none] at hfind
      have := hfind t (List.mem_reverse.2 hmem)
      simp [key_matches, hkey] at this

/-- C5: when `t` has the key `(state, symbol)` and no transition inserted after
`t` has it, lookup of the key returns `t`, whatever was inserted before `t`:
among several definitions of a key the last inserted one wins. -/
theorem lookup_last_wins (pre post : List Transition) (t : Transition)
    (state : List Char) (symbol : Char)
    (hkey : cstr t.start_state = cstr state ∧ t.read_symbol = symbol)
    (hpost : ∀ u ∈ post, ¬ (cstr u.start_state = cstr state ∧ u.read_symbol = symbol)) :
    get_transition_from_hash (build_table (pre ++ t :: post)) state symbol = some t := by
  rw [lookup_build_table, List.reverse_append, List.reverse_cons, List.append_assoc,
    List.find?_append]
  have h1 : post.reverse.find? (key_matches state symbol) = none := by
    rw [List.find?_eq_none]
    intro u hu
    simpa [key_matches] using hpost u (List.mem_reverse.1 hu)
  have h2 : key_matches state symbol t = true := by simp [key_matches, hkey]
  rw [h1, List.singleton_append, List.find?_cons, h2]
  rfl

/-- A witness for C5: two definitions of the key `("start", '1')`; lookup
returns the second one. -/
theorem lookup_last_wins_witness :
    ((cstr START = cstr START ∧ '1' = '1') ∧
      ∀ u ∈ ([] : List Transition), ¬ (cstr u.start_state = cstr START ∧ u.read_symbol = '1')) ∧
    get_transition_from_hash
      (build_table
        ([{ start_state := START, read_symbol := '1', next_state := STOP,
            write_symbol := '0', direction := '>' }] ++
          { start_state := START, read_symbol := '1', next_state := START,
            write_symbol := '1', direction := '<' } :: []))
      START '1'
      = some { start_state := START, read_symbol := '1', next_state := START,
               write_symbol := '1', direction := '<' } :=
  ⟨⟨⟨rfl, rfl⟩, by simp⟩,
   lookup_last_wins
    [{ start_state := START, read_symbol := '1', next_state := STOP,
       write_symbol := '0', direction := '>' }] []
    { start_state := START, read_symbol := '1', next_state := START,
      write_symbol := '1', direction := '<' } START '1' ⟨rfl, rfl⟩ (by simp)⟩

/-! ## The engine: the access to the tape -/

theorem tape_read_range (s : TapeState) (c : Char) (h : tape_read s = some c) :
    0 ≤ s.tape_head ∧ s.tape_head < s.tape_size := by
  unfold tape_read at h
  by_cases h0 : 0 ≤ s.tape_head
  · rw [if_pos h0] at h
    have := (List.getElem?_eq_some.1 h).1
    unfold TapeState.tape_size
    omega
  · rw [if_neg h0] at h
    exact Option.noConfusion h

theorem grows_of_in_range (s : TapeState)
    (h : 0 ≤ s.tape_head ∧ s.tape_head < s.tape_size) : grows s = false := by
  unfold grows
  rw [decide_eq_false (by omega)]
  rfl

theorem range_check_of_in_range (m : Machine)
    (h : 0 ≤ m.ts.tape_head ∧ m.ts.tape_head < m.ts.tape_size) : range_check m = m := by
  unfold range_check
  simp only [grows_of_in_range m.ts h, ensure_in_range_of_in_range m.ts h, Bool.false_eq_true,
    if_false]

theorem cell_read_of_tape_read (m : Machine) (c : Char) (h : tape_read m.ts = some c) :
    cell_read m = c := by
  obtain ⟨h0, h1⟩ := tape_read_range m.ts c h
  unfold tape_read at h
  rw [if_pos h0] at h
  unfold cell_read peek
  rw [if_neg (by omega), if_pos h1, List.getD_eq_getElem?_getD, h]
  rfl

theorem cell_write_of_tape_read (m : Machine) (c w : Char) (h : tape_read m.ts = some c) :
    cell_write m w =
      { ts := { tape := m.ts.tape.set m.ts.tape_head.toNat w
                tape_start := m.ts.tape_start
                tape_head := m.ts.tape_head
                memory_offset := m.ts.memory_offset }
        current_state := m.current_state, step_count := m.step_count
        below := m.below, above := m.above } := by
  obtain ⟨h0, h1⟩ := tape_read_range m.ts c h
  unfold cell_write
  rw [if_neg (by omega), if_pos h1]

/-- The store of line 294 leaves the locals, the head and the size of the tape
as they are. -/
theorem cell_write_frame (m : Machine) (w : Char) :
    (cell_write m w).current_state = m.current_state ∧
    (cell_write m w).step_count = m.step_count ∧
    (cell_write m w).ts.tape_head = m.ts.tape_head ∧
    (cell_write m w).ts.tape.length = m.ts.tape.length := by
  unfold cell_write
  by_cases h0 : m.ts.tape_head < 0
  · rw [if_pos h0]
    exact ⟨rfl, rfl, rfl, rfl⟩
  · rw [if_neg h0]
    by_cases h1 : m.ts.tape_head < m.ts.tape_size
    · rw [if_pos h1]
      exact ⟨rfl, rfl, rfl, by simp only [List.length_set]⟩
    · rw [if_neg h1]
      exact ⟨rfl, rfl, rfl, rfl⟩

/-! ## The engine: termination and the step limit -/

theorem run_step_next_count (table : HashTable) (m m1 : Machine)
    (h : run_step table m = Step.next m1) :
    m.step_count < STEP_LIMIT ∧ m1.step_count = m.step_count + 1 := by
  unfold run_step at h
  by_cases hlim : m.step_count ≥ STEP_LIMIT
  · rw [if_pos hlim] at h
    exact Step.noConfusion h
  · rw [if_neg hlim] at h
    simp only at h
    cases hget : get_transition_from_hash table (range_check m).current_state
        (cell_read (range_check m)) with
    | none => rw [hget] at h; exact Step.noConfusion h
    | some t =>
      rw [hget] at h
      simp only [Step.next.injEq] at h
      rw [← h]
      exact ⟨by omega, by
        show (cell_write (range_check m) t.write_symbol).step_count + 1 = m.step_count + 1
        rw [(cell_write_frame _ _).2.1]
        rfl⟩

theorem run_step_done (table : HashTable) (m m1 : Machine) (o : Outcome)
    (h : run_step table m = Step.done o m1) :
    m1.step_count = m.step_count ∧ m1.current_state = m.current_state ∧
    o ≠ Outcome.halted ∧ (o = Outcome.stepLimit ↔ m.step_count ≥ STEP_LIMIT) ∧
    (o = Outcome.noTransition ↔ m.step_count < STEP_LIMIT) := by
  unfold run_step at h
  by_cases hlim : m.step_count ≥ STEP_LIMIT
  · rw [if_pos hlim] at h
    simp only [Step.done.injEq] at h
    rw [← h.1, ← h.2]
    simp only [ne_eq, reduceCtorEq, not_false_eq_true, true_iff, false_iff, true_and]
    exact ⟨hlim, by omega⟩
  · rw [if_neg hlim] at h
    simp only at h
    cases hget : get_transition_from_hash table (range_check m).current_state
        (cell_read (range_check m)) with
    | none =>
      rw [hget] at h
      simp only [Step.done.injEq] at h
      rw [← h.1, ← h.2]
      simp only [ne_eq, reduceCtorEq, not_false_eq_true, true_iff, false_iff, true_and]
      exact ⟨rfl, rfl, hlim, by omega⟩
    | some t => rw [hget] at h; exact Step.noConfusion h

/-- The loop returns whenever the bound covers the steps left to the limit. -/
theorem run_loop_total (table : HashTable) : ∀ (fuel : Nat) (m : Machine),
    m.step_count ≤ STEP_LIMIT → STEP_LIMIT + 1 ≤ m.step_count + fuel →
    ∃ o m1, run_loop table fuel m = some (o, m1) ∧
      m1.step_count ≤ STEP_LIMIT ∧
      (o = Outcome.stepLimit ↔
        m1.step_count = STEP_LIMIT ∧ my_strcmp m1.current_state STOP ≠ 0) ∧
      (o = Outcome.halted ↔ my_strcmp m1.current_state STOP = 0) := by
  intro fuel
  induction fuel with
  | zero => intro m h1 h2; omega
  | succ fuel ih =>
    intro m h1 h2
    rw [run_loop]
    by_cases hstop : my_strcmp m.current_state STOP = 0
    · rw [if_pos hstop]
      exact ⟨Outcome.halted, m, rfl, h1, by simp [hstop], by simp [hstop]⟩
    · rw [if_neg hstop]
      cases hstep : run_step table m with
      | done o m1 =>
        obtain ⟨hc, hs, hne, hlim, _⟩ := run_step_done table m m1 o hstep
        refine ⟨o, m1, rfl, by omega, ?_, ?_⟩
        · rw [hlim, hc, hs]
          constructor
          · intro h; exact ⟨by omega, hstop⟩
          · intro h; omega
        · rw [hs]
          simp [hne, hstop]
      | next m1 =>
        obtain ⟨hlt, hc⟩ := run_step_next_count table m m1 hstep
        exact ih m1 (by omega) (by omega)

/-- C10: `runMachine` returns for every table, every initial tape and all bytes
around it, after at most 100000 applied transitions (`step_count` counts them);
it ends with the step-limit outcome exactly when 100000 transitions were applied
and the current state is not "stop", and it ends as halted exactly when the
current state is "stop" (so a run whose 100000th transition enters "stop" is
halted); the only other end is a missing transition. -/
theorem runMachine_terminates (table : HashTable) (ts : TapeState) (below above : List Char) :
    ∃ o m, runMachine table ts below above = some (o, m) ∧
      m.step_count ≤ 100000 ∧
      (o = Outcome.stepLimit ↔
        m.step_count = 100000 ∧ my_strcmp m.current_state STOP ≠ 0) ∧
      (o = Outcome.halted ↔ my_strcmp m.current_state STOP = 0) := by
  have h := run_loop_total table (STEP_LIMIT + 1)
    { ts := ts, current_state := START, step_count := 0, below := below, above := above }
    (Nat.zero_le _) (by simp)
  unfold STEP_LIMIT at h
  exact h

/-! ## Reading the initial tape, and the range of the head -/

theorem cstr_length_le (l : List Char) : (cstr l).length ≤ l.length := by
  induction l with
  | nil => simp [cstr]
  | cons c cs ih =>
    by_cases h : c = NUL
    · simp [cstr, h]
    · simp [cstr, h, ih]

/-- The first loop of `readTape` succeeds when the arena has room for the
blocks it requests, and the buffer then holds as many characters as were read.
`bound` is at least twice the number of characters. -/
theorem read_tape_line_ok (bound : Int) (stdin : List Char) :
    ∀ (buffer : List Char) (buffer_size memory_offset : Int),
    (∀ c ∈ stdin, c ≠ '\n') → 1 ≤ buffer_size → buffer_size ≤ bound →
    2 * ((buffer.length : Int) + (stdin.length : Int)) ≤ bound →
    memory_offset + 3 * bound - 2 * buffer_size ≤ MEMORY_POOL_SIZE →
    ∃ buffer1 buffer_size1 memory_offset1,
      read_tape_line stdin buffer buffer_size memory_offset
        = some (buffer1, buffer_size1, memory_offset1) ∧
      buffer1.length = buffer.length + stdin.length ∧
      1 ≤ buffer_size1 ∧
      memory_offset ≤ memory_offset1 ∧
      memory_offset1 + buffer_size1 ≤ memory_offset + 3 * bound - 2 * buffer_size := by
  induction stdin with
  | nil =>
    intro buffer bs mo _ h1 h2 _ _
    exact ⟨buffer, bs, mo, rfl, by simp, h1, le_refl _, by omega⟩
  | cons ch rest ih =>
    intro buffer bs mo hnl h1 h2 h3 h4
    have hch : ch ≠ '\n' := hnl ch (List.mem_cons_self _ _)
    have hrest : ∀ c ∈ rest, c ≠ '\n' := fun c hc => hnl c (List.mem_cons_of_mem _ hc)
    simp only [List.length_cons, Nat.cast_add, Nat.cast_one] at h3
    rw [read_tape_line, if_neg hch]
    by_cases hfull : (buffer.length : Int) ≥ bs - 1
    · rw [if_pos hfull]
      have halloc : custom_malloc mo (bs * 2) = some (mo + bs * 2) := by
        unfold custom_malloc
        rw [if_neg (by omega)]
      simp only [halloc]
      have hlen : (my_strcpy buffer ++
          List.replicate (buffer.length - (my_strcpy buffer).length) NUL ++ [ch]).length
          = buffer.length + 1 := by
        have := cstr_length_le buffer
        simp only [my_strcpy, List.length_append, List.length_replicate, List.length_singleton]
        omega
      obtain ⟨b1, bs1, mo1, heq, hl, hb, hm, hm2⟩ :=
        ih _ (bs * 2) (mo + bs * 2) hrest (by omega) (by omega) (by rw [hlen]; push_cast; omega)
          (by omega)
      refine ⟨b1, bs1, mo1, heq, ?_, hb, by omega, by omega⟩
      rw [hl, hlen, List.length_cons]
      omega
    · rw [if_neg hfull]
      obtain ⟨b1, bs1, mo1, heq, hl, hb, hm, hm2⟩ :=
        ih (buffer ++ [ch]) bs mo hrest h1 h2
          (by simp only [List.length_append, List.length_singleton]; push_cast; omega) h4
      refine ⟨b1, bs1, mo1, heq, ?_, hb, hm, hm2⟩
      rw [hl, List.length_append, List.length_singleton, List.length_cons]
      omega

theorem store_length (tape : List Char) (pos : Int) (c : Char) :
    (store tape pos c).length = tape.length := by
  unfold store
  split <;> simp

theorem place_text_length (buffer : List Char) : ∀ (tape : List Char) (pos : Int),
    (place_text tape pos buffer).length = tape.length := by
  induction buffer with
  | nil => intro tape pos; rfl
  | cons c cs ih => intro tape pos; rw [place_text, ih, store_length]

/-- The tape built by `readTape` from a line of `stdin.length` characters: it
has `INITIAL_TAPE_SIZE` cells whatever the length of the line, and the head is
`(INITIAL_TAPE_SIZE - length) / 2` with the division of C. -/
theorem readTape_ok (bound : Int) (memory_offset : Int) (stdin : List Char)
    (hnl : ∀ c ∈ stdin, c ≠ '\n') (hb : 256 ≤ bound)
    (hlen : 2 * (stdin.length : Int) ≤ bound)
    (hroom : memory_offset + 3 * bound ≤ MEMORY_POOL_SIZE) :
    ∃ s, readTape memory_offset stdin = some s ∧
      s.tape.length = INITIAL_TAPE_SIZE ∧
      s.tape_head = Int.tdiv ((INITIAL_TAPE_SIZE : Int) - (stdin.length : Int)) 2 ∧
      s.memory_offset ≤ memory_offset + 3 * bound := by
  have halloc : custom_malloc memory_offset 256 = some (memory_offset + 256) := by
    unfold custom_malloc
    rw [if_neg (by omega)]
  obtain ⟨b1, bs1, mo1, heq, hl, hbs, hm, hm2⟩ :=
    read_tape_line_ok bound stdin [] 256 (memory_offset + 256) hnl (by omega) hb
      (by simpa using hlen) (by omega)
  have halloc2 : custom_malloc mo1 bs1 = some (mo1 + bs1) := by
    unfold custom_malloc
    rw [if_neg (by omega)]
  have hrt : readTape memory_offset stdin = some
      { tape := place_text (List.replicate INITIAL_TAPE_SIZE BLANK)
          (Int.tdiv ((INITIAL_TAPE_SIZE : Int) - (b1.length : Int)) 2) b1
        tape_start := mo1
        tape_head := Int.tdiv ((INITIAL_TAPE_SIZE : Int) - (b1.length : Int)) 2
        memory_offset := mo1 + bs1 } := by
    unfold readTape
    simp only [halloc, heq, halloc2]
  refine ⟨_, hrt, ?_, ?_, ?_⟩
  · simp only [place_text_length, List.length_replicate]
  · simp only [hl, List.length_nil, Nat.zero_add]
  · simp only
    omega

/-- C3, at its failing input: for an initial tape text of 8194
characters `readTape` leaves the head at -2049 on a tape of 4096 cells; the one
growth of the range check gives a tape of 8192 cells with the head at -1, and
the first access of the step loop is `tape[-1]`, for every transition table and
whatever the bytes around the tape are. -/
theorem read_before_tape_start (table : HashTable) (below above : List Char) :
    ∃ s, readTape 0 (List.replicate 8194 '1') = some s ∧
      s.tape.length = 4096 ∧ s.tape_head = -2049 ∧
      (run_accesses table (STEP_LIMIT + 1)
        { ts := s, current_state := START, step_count := 0, below := below,
          above := above }).head? = some (-1, 8192) := by
  obtain ⟨s, hs, hlen, hhead, hmem⟩ := readTape_ok 16388 0 (List.replicate 8194 '1')
    (by
      intro c hc
      rw [List.eq_of_mem_replicate hc]
      decide)
    (by decide) (by rw [List.length_replicate]; decide) (by decide)
  rw [List.length_replicate] at hhead
  have hhead1 : s.tape_head = -2049 := by rw [hhead]; decide
  have hlen1 : s.tape.length = 4096 := hlen
  have hroom : s.memory_offset + 2 * (s.tape.length : Int) ≤ MEMORY_POOL_SIZE := by
    rw [hlen1]
    unfold MEMORY_POOL_SIZE
    omega
  have hexp := expand_tape_size_head s hroom
  have hens : ensure_in_range s = expand_tape s := by
    unfold ensure_in_range
    rw [if_pos (Or.inr (by omega))]
  have hh : (expand_tape s).tape_head = -1 := by
    rw [hexp.2, hhead1, hlen1]
    decide
  have hsize : (expand_tape s).tape_size = 8192 := by
    unfold TapeState.tape_size
    rw [hexp.1, hlen1]
    rfl
  refine ⟨s, hs, hlen1, hhead1, ?_⟩
  rw [run_accesses, if_neg (show ¬ (my_strcmp START STOP = 0) by decide),
    if_neg (show ¬ ((0 : Nat) ≥ STEP_LIMIT) by decide)]
  show some ((ensure_in_range s).tape_head, (ensure_in_range s).tape_size) = some (-1, 8192)
  rw [hens, hh, hsize]

/-! ## The parser: one record line -/

theorem peek_append_right (l r : List Char) (j : Nat) :
    peek (l ++ r) (l.length + j) = peek r j := by
  unfold peek
  simp [List.getD_eq_getElem?_getD, List.getElem?_append_right]

theorem cstr_of_no_nul (s : List Char) (h : NUL ∉ s) : cstr s = s := by
  induction s with
  | nil => rfl
  | cons c cs ih =>
    have hc : c ≠ NUL := fun e => h (by rw [e]; exact List.mem_cons_self _ _)
    have hcs : NUL ∉ cs := fun e => h (List.mem_cons_of_mem _ e)
    simp [cstr, hc, ih hcs]

/-- The scan of a name that is followed by a comma returns the name and the
index of the comma, provided the name leaves room for its terminator. -/
theorem scan_name_ok (name : List Char) : ∀ (pre rest acc : List Char) (room : Nat),
    ',' ∉ name → name.length < room →
    scan_name (pre ++ (name ++ ',' :: rest)) room pre.length acc
      = Except.ok (acc ++ name, pre.length + name.length) := by
  induction name with
  | nil =>
    intro pre rest acc room _ hroom
    obtain ⟨r, rfl⟩ : ∃ r, room = r + 1 := ⟨room - 1, by simp at hroom; omega⟩
    have hp : peek (pre ++ ([] ++ ',' :: rest)) pre.length = ',' := by
      have := peek_append_right pre ([] ++ ',' :: rest) 0
      simpa [peek] using this
    rw [scan_name, if_pos hp]
    simp
  | cons c cs ih =>
    intro pre rest acc room hcomma hroom
    obtain ⟨r, rfl⟩ : ∃ r, room = r + 1 := ⟨room - 1, by simp at hroom; omega⟩
    have hc : c ≠ ',' := fun e => hcomma (by rw [e]; exact List.mem_cons_self _ _)
    have hcs : ',' ∉ cs := fun e => hcomma (List.mem_cons_of_mem _ e)
    have hp : peek (pre ++ (c :: cs ++ ',' :: rest)) pre.length = c := by
      have := peek_append_right pre (c :: cs ++ ',' :: rest) 0
      simpa [peek] using this
    rw [scan_name, hp, if_neg hc]
    have hpre : pre ++ (c :: cs ++ ',' :: rest) = (pre ++ [c]) ++ (cs ++ ',' :: rest) := by simp
    have := ih (pre ++ [c]) rest (acc ++ [c]) r hcs (by simp at hroom; omega)
    simp only [List.length_append, List.length_singleton] at this
    rw [hpre, this]
    simp only [List.append_assoc, List.singleton_append, List.length_cons]
    congr 2
    omega

/-- The fixed-offset reads applied to a record line of the grammar give back
its five fields, whatever the line buffer holds after the line; the last index
read is that of the direction character, the last character of the line. -/
theorem parse_record_ok (t : Transition) (hs : name_ok t.start_state)
    (hn : name_ok t.next_state) (stale : List Char) :
    parse_record (record_line t ++ stale) = Except.ok (t, (record_line t).length - 1) := by
  obtain ⟨s1, r, s2, w, d⟩ := t
  obtain ⟨hs1, hs2, _, hs4⟩ := hs
  obtain ⟨hn1, hn2, _, hn4⟩ := hn
  simp only at hs1 hs2 hs4 hn1 hn2 hn4
  have hscan1 := scan_name_ok s1 ['(']
    ([' ', r, ')', ' ', '-', '>', ' ', '('] ++ s2 ++ [',', ' ', w, ')', ' ', d] ++ stale) []
    MAX_STATE_NAME hs2 hs1
  have hmem1 : record_line ⟨s1, r, s2, w, d⟩ ++ stale = ['('] ++ (s1 ++ ',' ::
      ([' ', r, ')', ' ', '-', '>', ' ', '('] ++ s2 ++ [',', ' ', w, ')', ' ', d] ++ stale)) := by
    simp [record_line]
  have hscan2 := scan_name_ok s2 ('(' :: s1 ++ [',', ' ', r, ')', ' ', '-', '>', ' ', '('])
    ([' ', w, ')', ' ', d] ++ stale) [] MAX_STATE_NAME hn2 hn1
  have hmem2 : record_line ⟨s1, r, s2, w, d⟩ ++ stale
      = ('(' :: s1 ++ [',', ' ', r, ')', ' ', '-', '>', ' ', '(']) ++ (s2 ++ ',' ::
        ([' ', w, ')', ' ', d] ++ stale)) := by
    simp [record_line]
  have hlen2 : ('(' :: s1 ++ [',', ' ', r, ')', ' ', '-', '>', ' ', '(']).length
      = 1 + s1.length + 2 + 7 := by
    simp; omega
  have hr : peek (record_line ⟨s1, r, s2, w, d⟩ ++ stale) (1 + s1.length + 2) = r := by
    rw [hmem1, show 1 + s1.length + 2 = ['('].length + (s1.length + 2) from by simp; omega,
      peek_append_right, peek_append_right]
    rfl
  have hw : peek (record_line ⟨s1, r, s2, w, d⟩ ++ stale)
      (1 + s1.length + 2 + 7 + s2.length + 2) = w := by
    rw [hmem2, ← hlen2, Nat.add_assoc, peek_append_right, peek_append_right]
    rfl
  have hd : peek (record_line ⟨s1, r, s2, w, d⟩ ++ stale)
      (1 + s1.length + 2 + 7 + s2.length + 2 + 3) = d := by
    rw [hmem2, ← hlen2, Nat.add_assoc, Nat.add_assoc, peek_append_right, peek_append_right]
    rfl
  have hlast : (record_line ⟨s1, r, s2, w, d⟩).length - 1
      = 1 + s1.length + 2 + 7 + s2.length + 2 + 3 := by
    simp [record_line]; omega
  unfold parse_record
  rw [hmem1] at hr hw hd ⊢
  simp only [List.length_singleton, List.nil_append] at hscan1
  rw [hscan1]
  simp only
  rw [hmem1] at hmem2
  rw [hmem2] at hr hw hd ⊢
  simp only [List.nil_append] at hscan2
  rw [hlen2] at hscan2
  rw [hscan2]
  simp only [hr, hw, hd, my_strcpy, cstr_of_no_nul s1 hs4, cstr_of_no_nul s2 hn4, hlast]

/-! ## The parser: lines of the buffer -/

theorem poke_at_end (done stale : List Char) (c : Char) :
    poke (done ++ stale) done.length c = done ++ c :: stale.drop 1 := by
  unfold poke
  cases stale with
  | nil => simp
  | cons x xs =>
    rw [if_pos (by simp)]
    simp

/-- The copy loop on a buffer that starts with the newline-free bytes `l`
followed by a newline: `l` is stored over the line buffer from `line_index`
onwards, and the loop stops at the newline. -/
theorem copy_line_ok (l : List Char) : ∀ (done stale rest : List Char), '\n' ∉ l →
    copy_line (l ++ '\n' :: rest) (done ++ stale) done.length
      = (done ++ l ++ stale.drop l.length, done.length + l.length, '\n' :: rest) := by
  induction l with
  | nil =>
    intro done stale rest _
    simp [copy_line]
  | cons c cs ih =>
    intro done stale rest hnl
    have hc : c ≠ '\n' := fun e => hnl (by rw [e]; exact List.mem_cons_self _ _)
    have hcs : '\n' ∉ cs := fun e => hnl (List.mem_cons_of_mem _ e)
    rw [List.cons_append, copy_line, if_neg hc, poke_at_end]
    have h := ih (done ++ [c]) (stale.drop 1) rest hcs
    simp only [List.length_append, List.length_singleton, List.append_assoc,
      List.singleton_append, List.drop_drop] at h
    rw [h]
    simp only [List.append_assoc, List.cons_append, List.length_cons, Prod.mk.injEq, true_and]
    rw [Nat.add_comm 1 cs.length]
    exact ⟨rfl, by omega, trivial⟩

theorem copy_line_rest (b : List Char) : ∀ (line : List Char) (line_index : Nat),
    (copy_line b line line_index).2.2 = b.dropWhile (fun c => decide (c ≠ '\n')) := by
  induction b with
  | nil => intro line li; rfl
  | cons c cs ih =>
    intro line li
    by_cases hc : c = '\n'
    · simp [copy_line, hc]
    · rw [copy_line, if_neg hc, ih, List.dropWhile_cons_of_pos (by simpa using hc)]

theorem count_of_dropWhile (b : List Char) : ∀ (c : Char) (rest : List Char),
    b.dropWhile (fun c => decide (c ≠ '\n')) = c :: rest →
    b.count '\n' = rest.count '\n' + 1 := by
  induction b with
  | nil => intro c rest h; simp at h
  | cons x xs ih =>
    intro c rest h
    by_cases hx : x = '\n'
    · subst hx
      simp only [ne_eq, not_true_eq_false, decide_False, Bool.false_eq_true,
        not_false_eq_true, List.dropWhile_cons_of_neg, List.cons.injEq] at h
      rw [← h.2]
      simp
    · rw [List.dropWhile_cons_of_pos (by simpa using hx)] at h
      rw [List.count_cons_of_ne (Ne.symm hx), ih c rest h]

/-- One pass of the line loop over a buffer that starts with a complete line,
entered with `line_index = 0`: the line buffer receives the line and its
terminator, what it held beyond stays, and the line is parsed when three lines
have gone before. -/
theorem process_buffer_line (fuel : Nat) (p : Parser) (l rest : List Char)
    (hbuf : p.buffer = l ++ '\n' :: rest) (hnl : '\n' ∉ l) (hidx : p.line_index = 0) :
    process_buffer (fuel + 1) p =
      if p.currentLine > 2 then
        match parse_record (l ++ NUL :: p.line.drop (l.length + 1)) with
        | Except.error e => Except.error e
        | Except.ok (t, _) =>
          if p.transitions.length ≥ HASH_TABLE_SIZE then Except.error Fault.table_overflow
          else
            process_buffer fuel
              { buffer := rest, buffer_size := p.buffer_size,
                line := l ++ NUL :: p.line.drop (l.length + 1), line_index := 0,
                currentLine := p.currentLine + 1, transitions := p.transitions ++ [t] }
      else
        process_buffer fuel
          { buffer := rest, buffer_size := p.buffer_size,
            line := l ++ NUL :: p.line.drop (l.length + 1), line_index := 0,
            currentLine := p.currentLine + 1, transitions := p.transitions } := by
  have hne : p.buffer ≠ [] := by rw [hbuf]; simp
  have hcopy : copy_line p.buffer p.line p.line_index
      = (l ++ p.line.drop l.length, l.length, '\n' :: rest) := by
    have h := copy_line_ok l [] p.line rest hnl
    simp only [List.nil_append, List.length_nil, Nat.zero_add] at h
    rw [hbuf, hidx, h]
  have hpoke : poke (l ++ p.line.drop l.length) l.length NUL
      = l ++ NUL :: p.line.drop (l.length + 1) := by
    rw [poke_at_end, List.drop_drop]
  rw [process_buffer, if_neg hne, hcopy]
  simp only [hpoke]

/-! ## The parser: a whole program text -/

theorem record_line_no_newline (t : Transition) (h : record_ok t) : '\n' ∉ record_line t := by
  obtain ⟨⟨_, _, hs, _⟩, ⟨_, _, hn, _⟩, hr, hw, hd⟩ := h
  simp [record_line, hs, hn, Ne.symm hr, Ne.symm hw, Ne.symm hd]

theorem process_buffer_nil (fuel : Nat) (p : Parser) (h : p.buffer = []) :
    process_buffer fuel p = Except.ok p := by
  cases fuel with
  | zero => rfl
  | succ n => rw [process_buffer, if_pos h]

/-- The line loop over the record lines of `ts`, entered after the header: every
line becomes its transition, in order. -/
theorem process_records (ts : List Transition) : ∀ (fuel : Nat) (p : Parser),
    (∀ t ∈ ts, record_ok t) → 2 < p.currentLine → p.line_index = 0 →
    p.transitions.length + ts.length ≤ HASH_TABLE_SIZE →
    (record_lines ts).length ≤ fuel → p.buffer = record_lines ts →
    ∃ p1, process_buffer fuel p = Except.ok p1 ∧
      p1.transitions = p.transitions ++ ts ∧ p1.buffer = [] := by
  induction ts with
  | nil =>
    intro fuel p _ _ _ _ _ hbuf
    exact ⟨p, process_buffer_nil fuel p hbuf, by simp, hbuf⟩
  | cons t rest ih =>
    intro fuel p hok hcur hidx hroom hfuel hbuf
    have ht : record_ok t := hok t (List.mem_cons_self _ _)
    have hrest : ∀ u ∈ rest, record_ok u := fun u hu => hok u (List.mem_cons_of_mem _ hu)
    rw [record_lines] at hbuf hfuel
    simp only [List.length_append, List.length_cons] at hfuel hroom
    obtain ⟨f, rfl⟩ : ∃ f, fuel = f + 1 := ⟨fuel - 1, by omega⟩
    rw [process_buffer_line f p _ _ hbuf (record_line_no_newline t ht) hidx, if_pos hcur,
      parse_record_ok t ht.1 ht.2.1]
    simp only
    rw [if_neg (by omega)]
    obtain ⟨p1, h1, h2, h3⟩ := ih f
      { buffer := record_lines rest, buffer_size := p.buffer_size,
        line := record_line t ++ NUL :: p.line.drop ((record_line t).length + 1),
        line_index := 0, currentLine := p.currentLine + 1, transitions := p.transitions ++ [t] }
      hrest (show 2 < p.currentLine + 1 by omega) rfl
      (show (p.transitions ++ [t]).length + rest.length ≤ HASH_TABLE_SIZE by
        simp only [List.length_append, List.length_singleton]; omega)
      (by omega) rfl
    exact ⟨p1, h1, by rw [h2]; simp, h3⟩

/-- The line loop stores no transition while fewer than four lines are
complete. -/
theorem process_buffer_header (fuel : Nat) : ∀ (p : Parser),
    p.currentLine + p.buffer.count '\n' ≤ 3 →
    ∃ p1, process_buffer fuel p = Except.ok p1 ∧ p1.transitions = p.transitions := by
  induction fuel with
  | zero => intro p _; exact ⟨p, rfl, rfl⟩
  | succ f ih =>
    intro p h
    rw [process_buffer]
    by_cases hb : p.buffer = []
    · rw [if_pos hb]; exact ⟨p, rfl, rfl⟩
    · rw [if_neg hb]
      have hrest := copy_line_rest p.buffer p.line p.line_index
      rcases hc : copy_line p.buffer p.line p.line_index with ⟨line, li, rest⟩
      rw [hc] at hrest
      simp only at hrest
      cases rest with
      | nil => exact ⟨_, rfl, rfl⟩
      | cons c rest1 =>
        have hcount := count_of_dropWhile p.buffer c rest1 hrest.symm
        simp only
        rw [if_neg (by omega)]
        obtain ⟨p1, h1, h2⟩ := ih
          { buffer := rest1, buffer_size := p.buffer_size, line := poke line li NUL,
            line_index := 0, currentLine := p.currentLine + 1, transitions := p.transitions }
          (show p.currentLine + 1 + rest1.count '\n' ≤ 3 by omega)
        exact ⟨p1, h1, h2⟩

/-- A file of at most `BUFFER_SIZE` bytes arrives with the first `read`, and the
parser returns what the line loop makes of it. -/
theorem parseFile_single_read (file : List Char) (hlen : file.length ≤ BUFFER_SIZE)
    (p1 : Parser)
    (h : process_buffer file.length ⟨file, BUFFER_SIZE, [], 0, 0, []⟩ = Except.ok p1) :
    parseFile file = Except.ok p1.transitions := by
  unfold parseFile parseMachineFile
  cases file with
  | nil =>
    simp only [List.length_nil, process_buffer, Except.ok.injEq] at h
    rw [← h]
    rfl
  | cons c cs =>
    have htake : (c :: cs).take BUFFER_SIZE = c :: cs := List.take_of_length_le hlen
    have hdrop : (c :: cs).drop BUFFER_SIZE = [] := List.drop_of_length_le hlen
    have hfeed : feed Parser.init (c :: cs) = Except.ok p1 := by
      unfold feed
      rw [if_neg (by simp only [Parser.init, List.length_nil, Nat.zero_add]; omega)]
      simp only [Parser.init, List.length_nil, Nat.zero_add, List.nil_append]
      exact h
    have hcount : Parser.init.buffer_size - Parser.init.buffer.length = BUFFER_SIZE := rfl
    simp only [List.length_cons]
    rw [parse_loop]
    simp only [hcount, List.headD_nil, Nat.min_self, htake, hdrop, List.tail_nil, hfeed]
    rw [if_neg (by simp)]
    cases cs.length with
    | zero => rfl
    | succ n =>
      rw [parse_loop]
      simp

theorem record_lines_length (ts : List Transition) :
    17 * ts.length ≤ (record_lines ts).length := by
  induction ts with
  | nil => simp
  | cons t rest ih =>
    rw [record_lines]
    simp only [record_line, List.length_append, List.length_cons, List.length_nil]
    omega

/-- The line loop on a header line: the line is passed over. -/
theorem process_buffer_skip (fuel : Nat) (l rest line : List Char) (size n : Nat)
    (ts : List Transition) (hnl : '\n' ∉ l) (hn : n ≤ 2) :
    process_buffer (fuel + 1) ⟨l ++ '\n' :: rest, size, line, 0, n, ts⟩
      = process_buffer fuel ⟨rest, size, l ++ NUL :: line.drop (l.length + 1), 0, n + 1, ts⟩ := by
  rw [process_buffer_line fuel _ l rest rfl hnl rfl, if_neg (show ¬ (n > 2) by omega)]

/-- The line loop over a whole program text: the three header lines are passed
over and the record lines become the transitions. -/
theorem process_program (h1 h2 h3 : List Char) (ts : List Transition)
    (hh1 : '\n' ∉ h1) (hh2 : '\n' ∉ h2) (hh3 : '\n' ∉ h3)
    (hts : ∀ t ∈ ts, record_ok t)
    (hlen : (program_text h1 h2 h3 ts).length ≤ BUFFER_SIZE) :
    ∃ p1, process_buffer (program_text h1 h2 h3 ts).length
        ⟨program_text h1 h2 h3 ts, BUFFER_SIZE, [], 0, 0, []⟩ = Except.ok p1 ∧
      p1.transitions = ts := by
  have hcount := record_lines_length ts
  have hl : (program_text h1 h2 h3 ts).length
      = h1.length + h2.length + h3.length + (record_lines ts).length + 1 + 1 + 1 := by
    simp only [program_text, List.length_append, List.length_cons]
    omega
  have hn : ts.length ≤ HASH_TABLE_SIZE := by
    unfold BUFFER_SIZE at hlen
    unfold HASH_TABLE_SIZE
    omega
  rw [hl, program_text, process_buffer_skip _ h1 _ _ _ _ _ hh1 (by decide),
    process_buffer_skip _ h2 _ _ _ _ _ hh2 (by decide),
    process_buffer_skip _ h3 _ _ _ _ _ hh3 (by decide)]
  obtain ⟨p1, hp1, htr, _⟩ := process_records ts
    (h1.length + h2.length + h3.length + (record_lines ts).length)
    ⟨record_lines ts, BUFFER_SIZE,
      h3 ++ NUL :: List.drop (h3.length + 1)
        (h2 ++ NUL :: List.drop (h2.length + 1) (h1 ++ NUL :: List.drop (h1.length + 1) [])),
      0, 0 + 1 + 1 + 1, []⟩
    hts (show 2 < (0 : Nat) + 1 + 1 + 1 by decide) rfl (by simpa using hn) (by omega) rfl
  exact ⟨p1, hp1, by rw [htr]; rfl⟩

/-- The parser on a program text of at most `BUFFER_SIZE` bytes made of three
header lines and the record lines of `ts`. -/
theorem parseFile_program (h1 h2 h3 : List Char) (ts : List Transition)
    (hh1 : '\n' ∉ h1) (hh2 : '\n' ∉ h2) (hh3 : '\n' ∉ h3)
    (hts : ∀ t ∈ ts, record_ok t)
    (hlen : (program_text h1 h2 h3 ts).length ≤ BUFFER_SIZE) :
    parseFile (program_text h1 h2 h3 ts) = Except.ok ts := by
  obtain ⟨p1, hp1, htr⟩ := process_program h1 h2 h3 ts hh1 hh2 hh3 hts hlen
  rw [parseFile_single_read _ hlen p1 hp1, htr]

/-- C6, as amended: for every program text of at most 4096 bytes made of three
header lines followed by record lines `(S1, R) -> (S2, W) D`, each ended by a
newline, with state names of at most 49 characters free of comma, newline and
`NUL`, the parser yields exactly the transitions of the record lines, in file
order. -/
theorem parse_records_in_order (h1 h2 h3 : List Char) (ts : List Transition)
    (hh1 : '\n' ∉ h1) (hh2 : '\n' ∉ h2) (hh3 : '\n' ∉ h3)
    (hts : ∀ t ∈ ts, record_ok t)
    (hlen : (program_text h1 h2 h3 ts).length ≤ 4096) :
    ∃ parsed : List Transition, parseFile (program_text h1 h2 h3 ts) = Except.ok parsed ∧
      parsed.length = ts.length ∧ ∀ k : Nat, parsed[k]? = ts[k]? :=
  ⟨ts, parseFile_program h1 h2 h3 ts hh1 hh2 hh3 hts hlen, rfl, fun _ => rfl⟩

/-- A witness for C6 as amended: a header of three lines and the record line
of scenario A. -/
theorem parse_records_in_order_witness :
    (('\n' ∉ ['h'] ∧ '\n' ∉ ['h'] ∧ '\n' ∉ ['h']) ∧
      (program_text ['h'] ['h'] ['h'] [⟨START, '1', STOP, '1', '>'⟩]).length ≤ 4096) ∧
    ∃ parsed : List Transition,
      parseFile (program_text ['h'] ['h'] ['h'] [⟨START, '1', STOP, '1', '>'⟩])
        = Except.ok parsed ∧
      parsed.length = [(⟨START, '1', STOP, '1', '>'⟩ : Transition)].length ∧
      ∀ k : Nat, parsed[k]? = [(⟨START, '1', STOP, '1', '>'⟩ : Transition)][k]? :=
  ⟨by decide,
   parse_records_in_order ['h'] ['h'] ['h'] [⟨START, '1', STOP, '1', '>'⟩]
    (by decide) (by decide) (by decide)
    (by
      intro t ht
      rw [List.mem_singleton] at ht
      subst ht
      unfold record_ok name_ok
      decide)
    (by decide)⟩

set_option maxRecDepth 100000 in
/-- C6 as stated fails for a state name of 50 characters: the name and its
terminator do not fit the array of `MAX_STATE_NAME` bytes, and no transition
with this start state is produced. -/
theorem long_state_name_overflows :
    parseFile (program_text ['h'] ['h'] ['h']
      [⟨List.replicate 50 'q', '1', STOP, '1', '>'⟩])
      = Except.error Fault.name_overflow := by
  decide

/-- C7, as amended: for program texts of at most 4096 bytes whose record lines
follow the grammar, the parsed transitions do not depend on the contents of
the three header lines, the first transition comes from the fourth line, and a
text of at most 4096 bytes with at most three newlines yields no transition. -/
theorem header_lines_skipped (h1 h2 h3 g1 g2 g3 : List Char) (ts : List Transition)
    (hh1 : '\n' ∉ h1) (hh2 : '\n' ∉ h2) (hh3 : '\n' ∉ h3)
    (hg1 : '\n' ∉ g1) (hg2 : '\n' ∉ g2) (hg3 : '\n' ∉ g3)
    (hts : ∀ t ∈ ts, record_ok t)
    (hlen : (program_text h1 h2 h3 ts).length ≤ 4096)
    (hlen1 : (program_text g1 g2 g3 ts).length ≤ 4096) :
    parseFile (program_text h1 h2 h3 ts) = parseFile (program_text g1 g2 g3 ts) ∧
    parseFile (program_text h1 h2 h3 ts) = Except.ok ts ∧
    (∀ text : List Char, text.length ≤ 4096 → text.count '\n' ≤ 3 →
      parseFile text = Except.ok []) := by
  refine ⟨?_, parseFile_program h1 h2 h3 ts hh1 hh2 hh3 hts hlen, ?_⟩
  · rw [parseFile_program h1 h2 h3 ts hh1 hh2 hh3 hts hlen,
      parseFile_program g1 g2 g3 ts hg1 hg2 hg3 hts hlen1]
  · intro text htl hcount
    obtain ⟨p1, hp1, htr⟩ := process_buffer_header text.length
      ⟨text, BUFFER_SIZE, [], 0, 0, []⟩ (by simpa using hcount)
    rw [parseFile_single_read text htl p1 hp1, htr]

/-- A witness for C7 as amended: the header lines "h", "h", "h" replaced by
"a", "bc", "". -/
theorem header_lines_skipped_witness :
    (('\n' ∉ ['h'] ∧ '\n' ∉ ['a'] ∧ '\n' ∉ ['b', 'c'] ∧ '\n' ∉ ([] : List Char)) ∧
      (program_text ['h'] ['h'] ['h'] [⟨START, '1', STOP, '1', '>'⟩]).length ≤ 4096 ∧
      (program_text ['a'] ['b', 'c'] [] [⟨START, '1', STOP, '1', '>'⟩]).length ≤ 4096) ∧
    parseFile (program_text ['h'] ['h'] ['h'] [⟨START, '1', STOP, '1', '>'⟩])
      = parseFile (program_text ['a'] ['b', 'c'] [] [⟨START, '1', STOP, '1', '>'⟩]) :=
  ⟨by decide,
   (header_lines_skipped ['h'] ['h'] ['h'] ['a'] ['b', 'c'] []
    [⟨START, '1', STOP, '1', '>'⟩]
    (by decide) (by decide) (by decide) (by decide) (by decide) (by decide)
    (by
      intro t ht
      rw [List.mem_singleton] at ht
      subst ht
      unfold record_ok name_ok
      decide)
    (by decide) (by decide)).1⟩

set_option maxRecDepth 100000 in
/-- C7 as stated fails: two program texts that differ only in their third
line, a header line, give different transitions for the fourth line "(a",
because the fixed-offset reads go on into what the third line left in the line
buffer. -/
theorem header_contents_leak :
    parseFile "h\nh\n(start, 1) -> (stop, 1) >\n(a\n".toList
      = Except.ok [⟨['a'], '1', STOP, '1', '>'⟩] ∧
    parseFile "h\nh\n(start, 0) -> (halt, 0) <\n(a\n".toList
      = Except.ok [⟨['a'], '0', ['h', 'a', 'l', 't'], '0', '<'⟩] := by
  decide

/-- C8, as amended: for every record line that follows the grammar, whatever
the line buffer holds after the line, the record parser reads no character at
an index past the end of the line (the last index read is below the length of
the line) and turns the line into its transition. -/
theorem record_reads_within_line (t : Transition) (hs : name_ok t.start_state)
    (hn : name_ok t.next_state) (stale : List Char) :
    ∃ last : Nat, parse_record (record_line t ++ NUL :: stale) = Except.ok (t, last) ∧
      last < (record_line t).length := by
  refine ⟨(record_line t).length - 1, parse_record_ok t hs hn (NUL :: stale), ?_⟩
  have : 0 < (record_line t).length := by simp [record_line]
  omega

/-- A witness for C8 as amended: the record line of scenario A, followed in the
line buffer by the rest of a longer line. -/
theorem record_reads_within_line_witness :
    (name_ok START ∧ name_ok STOP) ∧
    ∃ last : Nat,
      parse_record (record_line ⟨START, '1', STOP, '1', '>'⟩ ++ NUL :: [',', ',', ','])
        = Except.ok (⟨START, '1', STOP, '1', '>'⟩, last) ∧
      last < (record_line ⟨START, '1', STOP, '1', '>'⟩).length :=
  ⟨by unfold name_ok; decide,
   record_reads_within_line ⟨START, '1', STOP, '1', '>'⟩
    (by unfold name_ok; decide) (by unfold name_ok; decide) [',', ',', ',']⟩

set_option maxRecDepth 100000 in
/-- C8 as stated fails: the record line "(a", of two characters, that follows a
longer record line is not reported as malformed.  The parser reads the line
buffer up to index 24, through the bytes the earlier line left there, and
stores a second transition. -/
theorem short_line_becomes_transition :
    parseFile "h\nh\nh\n(start, 1) -> (stop, 1) >\n(a\n".toList
      = Except.ok [⟨START, '1', STOP, '1', '>'⟩, ⟨['a'], '1', STOP, '1', '>'⟩] ∧
    (match process_buffer 37
        ⟨"h\nh\nh\n(start, 1) -> (stop, 1) >\n(a\n".toList, BUFFER_SIZE, [], 0, 0, []⟩ with
      | Except.ok p => p.line
      | Except.error _ => [])
      = "(a".toList ++ NUL :: "art, 1) -> (stop, 1) >".toList ++ [NUL] ∧
    parse_record ("(a".toList ++ NUL :: "art, 1) -> (stop, 1) >".toList ++ [NUL])
      = Except.ok (⟨['a'], '1', STOP, '1', '>'⟩, 24) := by
  decide

/-- C9, as amended: in a program text of at most 4096 bytes made of three
header lines and record lines that follow the grammar, every record line is
stored with its direction character whatever that character is; and when the
engine applies a stored transition whose direction is neither '>' nor '<', it
writes the symbol at the head, changes the state, counts the step and leaves the
head where it is. -/
theorem unknown_direction_kept (h1 h2 h3 : List Char) (ts : List Transition) (t : Transition)
    (hh1 : '\n' ∉ h1) (hh2 : '\n' ∉ h2) (hh3 : '\n' ∉ h3)
    (hts : ∀ u ∈ ts, record_ok u)
    (hlen : (program_text h1 h2 h3 ts).length ≤ 4096)
    (ht : t ∈ ts) (hdir : t.direction ≠ '>' ∧ t.direction ≠ '<') :
    ∃ parsed : List Transition,
      parseFile (program_text h1 h2 h3 ts) = Except.ok parsed ∧ t ∈ parsed ∧
      ∀ (m : Machine), m.step_count < STEP_LIMIT →
        get_transition_from_hash (build_table parsed) m.current_state
          (cell_read (range_check m)) = some t →
        run_step (build_table parsed) m = Step.next
          { ts := (cell_write (range_check m) t.write_symbol).ts
            current_state := t.next_state
            step_count := m.step_count + 1
            below := (cell_write (range_check m) t.write_symbol).below
            above := (cell_write (range_check m) t.write_symbol).above } ∧
        (cell_write (range_check m) t.write_symbol).ts.tape_head
          = (ensure_in_range m.ts).tape_head ∧
        (∀ c, tape_read (ensure_in_range m.ts) = some c →
          (cell_write (range_check m) t.write_symbol).ts.tape
            = (ensure_in_range m.ts).tape.set (ensure_in_range m.ts).tape_head.toNat
                t.write_symbol) := by
  refine ⟨ts, parseFile_program h1 h2 h3 ts hh1 hh2 hh3 hts hlen, ht, ?_⟩
  intro m hlim hget
  have hnul : cstr t.next_state = t.next_state := cstr_of_no_nul _ (hts t ht).2.1.2.2.2
  have hget1 : get_transition_from_hash (build_table ts) (range_check m).current_state
      (cell_read (range_check m)) = some t := hget
  refine ⟨?_, (cell_write_frame _ _).2.2.1, ?_⟩
  rotate_left
  · intro c hc
    have hc1 : tape_read (range_check m).ts = some c := hc
    rw [cell_write_of_tape_read _ c _ hc1]
    rfl
  unfold run_step
  rw [if_neg (by omega)]
  simp only [hget1, move_head, hdir.1, hdir.2, if_false, my_strcpy, hnul,
    (cell_write_frame (range_check m) t.write_symbol).2.1]
  rfl

/-- A witness for C9 as amended: a record line with the direction 'x'. -/
theorem unknown_direction_kept_witness :
    (('\n' ∉ ['h']) ∧
      (program_text ['h'] ['h'] ['h'] [⟨START, '1', STOP, '1', 'x'⟩]).length ≤ 4096 ∧
      ('x' ≠ '>' ∧ 'x' ≠ '<')) ∧
    ∃ parsed : List Transition,
      parseFile (program_text ['h'] ['h'] ['h'] [⟨START, '1', STOP, '1', 'x'⟩])
        = Except.ok parsed ∧ (⟨START, '1', STOP, '1', 'x'⟩ : Transition) ∈ parsed ∧
      ∀ (m : Machine), m.step_count < STEP_LIMIT →
        get_transition_from_hash (build_table parsed) m.current_state
          (cell_read (range_check m)) = some ⟨START, '1', STOP, '1', 'x'⟩ →
        run_step (build_table parsed) m = Step.next
          { ts := (cell_write (range_check m) '1').ts
            current_state := STOP
            step_count := m.step_count + 1
            below := (cell_write (range_check m) '1').below
            above := (cell_write (range_check m) '1').above } ∧
        (cell_write (range_check m) '1').ts.tape_head = (ensure_in_range m.ts).tape_head ∧
        (∀ c, tape_read (ensure_in_range m.ts) = some c →
          (cell_write (range_check m) '1').ts.tape
            = (ensure_in_range m.ts).tape.set (ensure_in_range m.ts).tape_head.toNat '1') :=
  ⟨by decide,
   unknown_direction_kept ['h'] ['h'] ['h'] [⟨START, '1', STOP, '1', 'x'⟩]
    ⟨START, '1', STOP, '1', 'x'⟩ (by decide) (by decide) (by decide)
    (by
      intro t ht
      rw [List.mem_singleton] at ht
      subst ht
      unfold record_ok name_ok
      decide)
    (by decide) (List.mem_singleton.2 rfl) (by decide)⟩

set_option maxRecDepth 100000 in
/-- C9 as stated fails: the record line with the direction 'x' is stored as a
transition, and the engine applies it: the symbol is written, the state becomes
"stop", the step is counted and the head stays on its cell. -/
theorem unknown_direction_applied :
    parseFile "h\nh\nh\n(start, 1) -> (stop, 1) x\n".toList
      = Except.ok [⟨START, '1', STOP, '1', 'x'⟩] ∧
    run_step (build_table [⟨START, '1', STOP, '1', 'x'⟩])
        { ts := { tape := ['_', '1', '_'], tape_start := 0, tape_head := 1, memory_offset := 3 }
          current_state := START, step_count := 0, below := [], above := [] }
      = Step.next
        { ts := { tape := ['_', '1', '_'], tape_start := 0, tape_head := 1, memory_offset := 3 }
          current_state := STOP, step_count := 1, below := [], above := [] } := by
  decide

/-! ## Output -/

theorem print_cells_eq_filter (cells : List Char) :
    print_cells cells = cells.filter (fun c => decide (c ≠ '_')) := by
  induction cells with
  | nil => rfl
  | cons c cs ih =>
    by_cases h : c = '_'
    · simp [print_cells, h, ih]
    · simp [print_cells, h, ih]

theorem print_cells_append (a b : List Char) :
    print_cells (a ++ b) = print_cells a ++ print_cells b := by
  simp [print_cells_eq_filter]

theorem print_cells_replicate_blank (n : Nat) : print_cells (List.replicate n '_') = [] := by
  induction n with
  | zero => rfl
  | succ n ih => simp [List.replicate_succ, print_cells, ih]

theorem print_cells_length_le (cells : List Char) :
    (print_cells cells).length ≤ cells.length := by
  rw [print_cells_eq_filter]
  exact List.length_filter_le _ _

/-- C12: the output of `printTape` is the cells of the tape in index order
without the blanks, followed by the newline; it contains no blank, and a blank
between two stretches of cells is dropped like the blanks at the ends. -/
theorem printTape_drops_blanks (s : TapeState) :
    printTape s = s.tape.filter (fun c => decide (c ≠ '_')) ++ ['\n'] ∧
    '_' ∉ printTape s ∧
    (∀ left right : List Char, s.tape = left ++ '_' :: right →
      printTape s = print_cells left ++ print_cells right ++ ['\n']) := by
  refine ⟨by rw [printTape, print_cells_eq_filter], ?_, ?_⟩
  · rw [printTape, print_cells_eq_filter]
    intro h
    rw [List.mem_append] at h
    rcases h with h | h
    · have := (List.mem_filter.1 h).2
      simp at this
    · simp at h
  · intro left right h
    rw [printTape, h, print_cells_append]
    simp [print_cells]

/-! ## The contents of the initial tape -/

theorem read_tape_line_buffer (stdin : List Char) :
    ∀ (buffer : List Char) (buffer_size memory_offset : Int)
      (buffer1 : List Char) (buffer_size1 memory_offset1 : Int),
    (∀ c ∈ stdin, c ≠ '\n') → NUL ∉ buffer → NUL ∉ stdin →
    read_tape_line stdin buffer buffer_size memory_offset
      = some (buffer1, buffer_size1, memory_offset1) →
    buffer1 = buffer ++ stdin := by
  induction stdin with
  | nil =>
    intro buffer bs mo b1 bs1 mo1 _ _ _ h
    simp only [read_tape_line, Option.some.injEq, Prod.mk.injEq] at h
    rw [← h.1, List.append_nil]
  | cons ch rest ih =>
    intro buffer bs mo b1 bs1 mo1 hnl hb hs h
    have hch : ch ≠ '\n' := hnl ch (List.mem_cons_self _ _)
    have hrest : ∀ c ∈ rest, c ≠ '\n' := fun c hc => hnl c (List.mem_cons_of_mem _ hc)
    have hch0 : ch ≠ NUL := fun e => hs (by rw [e]; exact List.mem_cons_self _ _)
    have hs1 : NUL ∉ rest := fun e => hs (List.mem_cons_of_mem _ e)
    have hb1 : NUL ∉ buffer ++ [ch] := by
      intro e
      rcases List.mem_append.1 e with e | e
      · exact hb e
      · exact hch0 (List.mem_singleton.1 e).symm
    rw [read_tape_line, if_neg hch] at h
    by_cases hfull : (buffer.length : Int) ≥ bs - 1
    · rw [if_pos hfull] at h
      cases halloc : custom_malloc mo (bs * 2) with
      | none => rw [halloc] at h; exact Option.noConfusion h
      | some offset =>
        rw [halloc] at h
        simp only [my_strcpy, cstr_of_no_nul buffer hb, Nat.sub_self, List.replicate_zero,
          List.append_nil] at h
        rw [ih _ _ _ _ _ _ hrest hb1 hs1 h]
        simp
    · rw [if_neg hfull] at h
      rw [ih _ _ _ _ _ _ hrest hb1 hs1 h]
      simp

/-- The second loop of `readTape` on a stretch of the tape that has room for
the text. -/
theorem place_text_eq (text : List Char) : ∀ (pre mid post : List Char),
    mid.length = text.length →
    place_text (pre ++ mid ++ post) (pre.length : Int) text
      = pre ++ text.map (fun c => if c = ' ' then BLANK else c) ++ post := by
  induction text with
  | nil =>
    intro pre mid post h
    have : mid = [] := List.length_eq_zero.1 h
    simp [place_text, this]
  | cons c cs ih =>
    intro pre mid post h
    obtain ⟨x, xs, rfl⟩ : ∃ x xs, mid = x :: xs := by
      cases mid with
      | nil => simp at h
      | cons x xs => exact ⟨x, xs, rfl⟩
    have hstore : store (pre ++ x :: xs ++ post) (pre.length : Int)
        (if c = ' ' then BLANK else c)
        = (pre ++ [if c = ' ' then BLANK else c]) ++ xs ++ post := by
      unfold store
      rw [if_pos (by omega)]
      simp
    rw [place_text, hstore]
    have := ih (pre ++ [if c = ' ' then BLANK else c]) xs post (by simpa using h)
    simp only [List.length_append, List.length_singleton, Nat.cast_add, Nat.cast_one] at this
    rw [this]
    simp

theorem store_no_space (tape : List Char) (pos : Int) (c : Char) (hc : c ≠ ' ')
    (h : ' ' ∉ tape) : ' ' ∉ store tape pos c := by
  unfold store
  split
  · intro hmem
    rcases List.mem_or_eq_of_mem_set hmem with h1 | h1
    · exact h h1
    · exact hc h1.symm
  · exact h

theorem place_text_no_space (buffer : List Char) : ∀ (tape : List Char) (pos : Int),
    ' ' ∉ tape → ' ' ∉ place_text tape pos buffer := by
  induction buffer with
  | nil => intro tape pos h; exact h
  | cons c cs ih =>
    intro tape pos h
    rw [place_text]
    apply ih
    apply store_no_space _ _ _ _ h
    by_cases hc : c = ' '
    · rw [if_pos hc]; decide
    · rw [if_neg hc]; exact hc

/-- No cell of a tape built by `readTape` holds a space. -/
theorem readTape_no_space (memory_offset : Int) (stdin : List Char) (s : TapeState)
    (h : readTape memory_offset stdin = some s) : ' ' ∉ s.tape := by
  unfold readTape at h
  cases h1 : custom_malloc memory_offset 256 with
  | none => rw [h1] at h; exact Option.noConfusion h
  | some offset =>
    rw [h1] at h
    simp only at h
    cases h2 : read_tape_line stdin [] 256 offset with
    | none => rw [h2] at h; exact Option.noConfusion h
    | some r =>
      obtain ⟨buffer, buffer_size, start⟩ := r
      rw [h2] at h
      simp only at h
      cases h3 : custom_malloc start buffer_size with
      | none => rw [h3] at h; exact Option.noConfusion h
      | some offset1 =>
        rw [h3] at h
        simp only [Option.some.injEq] at h
        rw [← h]
        apply place_text_no_space
        intro hmem
        have := List.eq_of_mem_replicate hmem
        exact absurd this (by decide)

/-- The tape built by `readTape` from a text of at most `INITIAL_TAPE_SIZE`
characters without `NUL`: blanks, the text with its spaces turned into blanks,
blanks; the head is on the first cell of the text. -/
theorem readTape_cells (memory_offset : Int) (text : List Char)
    (hnl : ∀ c ∈ text, c ≠ '\n') (hnul : NUL ∉ text)
    (hlen : text.length ≤ INITIAL_TAPE_SIZE)
    (hroom : memory_offset + 24576 ≤ MEMORY_POOL_SIZE) :
    ∃ s, readTape memory_offset text = some s ∧
      s.tape = List.replicate ((INITIAL_TAPE_SIZE - text.length) / 2) BLANK
        ++ text.map (fun c => if c = ' ' then BLANK else c)
        ++ List.replicate
            (INITIAL_TAPE_SIZE - text.length - (INITIAL_TAPE_SIZE - text.length) / 2) BLANK ∧
      s.tape_head = (((INITIAL_TAPE_SIZE - text.length) / 2 : Nat) : Int) ∧
      s.memory_offset ≤ memory_offset + 24576 := by
  unfold INITIAL_TAPE_SIZE at hlen
  have halloc : custom_malloc memory_offset 256 = some (memory_offset + 256) := by
    unfold custom_malloc
    rw [if_neg (by omega)]
  obtain ⟨b1, bs1, mo1, heq, hl, hbs, hm, hm2⟩ :=
    read_tape_line_ok 8192 text [] 256 (memory_offset + 256) hnl (by omega) (by omega)
      (by simp only [List.length_nil, Nat.cast_zero]; omega) (by omega)
  have hb1 : b1 = text := by
    have := read_tape_line_buffer text [] 256 (memory_offset + 256) b1 bs1 mo1 hnl
      (by simp) hnul heq
    simpa using this
  subst hb1
  have halloc2 : custom_malloc mo1 bs1 = some (mo1 + bs1) := by
    unfold custom_malloc
    rw [if_neg (by omega)]
  have hstart : Int.tdiv ((INITIAL_TAPE_SIZE : Int) - (b1.length : Int)) 2
      = (((INITIAL_TAPE_SIZE - b1.length) / 2 : Nat) : Int) := by
    unfold INITIAL_TAPE_SIZE
    rw [Int.tdiv_eq_ediv (by omega) (by omega)]
    omega
  have hrt : readTape memory_offset b1 = some
      { tape := place_text (List.replicate INITIAL_TAPE_SIZE BLANK)
          (((INITIAL_TAPE_SIZE - b1.length) / 2 : Nat) : Int) b1
        tape_start := mo1
        tape_head := (((INITIAL_TAPE_SIZE - b1.length) / 2 : Nat) : Int)
        memory_offset := mo1 + bs1 } := by
    unfold readTape
    simp only [halloc, heq, halloc2, hstart]
  refine ⟨_, hrt, ?_, rfl, by simp only; omega⟩
  simp only
  have hsplit : List.replicate INITIAL_TAPE_SIZE BLANK
      = List.replicate ((INITIAL_TAPE_SIZE - b1.length) / 2) BLANK
        ++ List.replicate b1.length BLANK
        ++ List.replicate
            (INITIAL_TAPE_SIZE - b1.length - (INITIAL_TAPE_SIZE - b1.length) / 2) BLANK := by
    rw [← List.replicate_add, ← List.replicate_add]
    congr 1
    unfold INITIAL_TAPE_SIZE
    omega
  rw [hsplit]
  have := place_text_eq b1 (List.replicate ((INITIAL_TAPE_SIZE - b1.length) / 2) BLANK)
    (List.replicate b1.length BLANK)
    (List.replicate
      (INITIAL_TAPE_SIZE - b1.length - (INITIAL_TAPE_SIZE - b1.length) / 2) BLANK)
    (by simp)
  rw [List.length_replicate] at this
  exact this

/-- C11, at its failing input: for an initial tape text of 4098 characters
`readTape` builds a tape of 4096 cells, fewer than the text has characters, and
the start position, which is also the head, is -1. -/
theorem readTape_text_too_long :
    ∃ s, readTape 0 (List.replicate 4098 '1') = some s ∧
      s.tape.length = 4096 ∧ s.tape_head = -1 := by
  obtain ⟨s, hs, hlen, hhead, _⟩ := readTape_ok 8196 0 (List.replicate 4098 '1')
    (by
      intro c hc
      rw [List.eq_of_mem_replicate hc]
      decide)
    (by decide) (by rw [List.length_replicate]; decide) (by decide)
  rw [List.length_replicate] at hhead
  exact ⟨s, hs, hlen, by rw [hhead]; decide⟩

/-- C16, at its failing input: a text of a space and 4097 characters 'a'.  No
cell of the tape holds a space, but the tape has 4096 cells, so the output has
at most 4096 characters before its newline, while the text without its space
has 4097. -/
theorem output_of_long_text :
    ∃ s, readTape 0 (' ' :: List.replicate 4097 'a') = some s ∧
      ' ' ∉ s.tape ∧
      (printTape s).length ≤ 4097 ∧
      (((' ' :: List.replicate 4097 'a').filter
        (fun c => decide (c ≠ ' ' ∧ c ≠ '_'))) ++ ['\n']).length = 4098 := by
  obtain ⟨s, hs, hlen, _, _⟩ := readTape_ok 8196 0 (' ' :: List.replicate 4097 'a')
    (by
      intro c hc
      rcases List.mem_cons.1 hc with h | h
      · rw [h]; decide
      · rw [List.eq_of_mem_replicate h]; decide)
    (by decide) (by rw [List.length_cons, List.length_replicate]; decide) (by decide)
  refine ⟨s, hs, readTape_no_space _ _ s hs, ?_, ?_⟩
  · have := print_cells_length_le s.tape
    rw [printTape, List.length_append, List.length_singleton]
    rw [hlen] at this
    unfold INITIAL_TAPE_SIZE at this
    omega
  · have hfilter : ∀ n : Nat, (List.replicate n 'a').filter
        (fun c => decide (c ≠ ' ' ∧ c ≠ '_')) = List.replicate n 'a' := by
      intro n
      induction n with
      | zero => rfl
      | succ n ih =>
        rw [List.replicate_succ, List.filter_cons_of_pos (by decide), ih]
    rw [List.filter_cons_of_neg (by decide), hfilter, List.length_append,
      List.length_replicate]
    rfl

/-! ## The engine: one step -/

/-- A pass through the loop body that reads a cell of the tape and finds a
transition. -/
theorem run_step_found (table : HashTable) (m : Machine) (c : Char) (t : Transition)
    (hlim : m.step_count < STEP_LIMIT)
    (hread : tape_read (ensure_in_range m.ts) = some c)
    (hget : get_transition_from_hash table m.current_state c = some t) :
    run_step table m = Step.next
      { ts := { tape := (ensure_in_range m.ts).tape.set
                  (ensure_in_range m.ts).tape_head.toNat t.write_symbol
                tape_start := (ensure_in_range m.ts).tape_start
                tape_head := move_head (ensure_in_range m.ts).tape_head t.direction
                memory_offset := (ensure_in_range m.ts).memory_offset }
        current_state := my_strcpy t.next_state
        step_count := m.step_count + 1
        below := (range_check m).below
        above := (range_check m).above } := by
  have hread1 : tape_read (range_check m).ts = some c := hread
  have hget1 : get_transition_from_hash table (range_check m).current_state
      (cell_read (range_check m)) = some t := by
    rw [cell_read_of_tape_read _ c hread1]
    exact hget
  unfold run_step
  rw [if_neg (by omega)]
  simp only [hget1, cell_write_of_tape_read _ c t.write_symbol hread1]
  rfl

/-- A pass through the loop body with the head on a cell of the tape leaves the
bytes around the tape as they are. -/
theorem range_check_outside (m : Machine)
    (h : 0 ≤ m.ts.tape_head ∧ m.ts.tape_head < m.ts.tape_size) :
    (range_check m).below = m.below ∧ (range_check m).above = m.above := by
  rw [range_check_of_in_range m h]
  exact ⟨rfl, rfl⟩

theorem run_loop_stop (table : HashTable) (fuel : Nat) (m : Machine)
    (h : my_strcmp m.current_state STOP = 0) :
    run_loop table (fuel + 1) m = some (Outcome.halted, m) := by
  rw [run_loop, if_pos h]

/-- A tape of blanks around one cell. -/
theorem tape_one_cells (n k : Nat) (c : Char) (hc : c ≠ '_') :
    (List.replicate n '_' ++ c :: List.replicate k '_').length = n + k + 1 ∧
    (List.replicate n '_' ++ c :: List.replicate k '_')[n]? = some c ∧
    (List.replicate n '_' ++ c :: List.replicate k '_').set n c
      = List.replicate n '_' ++ c :: List.replicate k '_' ∧
    print_cells (List.replicate n '_' ++ c :: List.replicate k '_') = [c] := by
  refine ⟨by simp; omega, ?_, ?_, ?_⟩
  · rw [List.getElem?_append_right (by simp)]
    simp
  · rw [List.set_append_right _ _ (by simp)]
    simp
  · rw [print_cells_append, print_cells_replicate_blank, print_cells, if_pos hc,
      print_cells_replicate_blank]
    rfl

/-- The tape that `readTape` builds from the text "1". -/
theorem readTape_one (memory_offset : Int)
    (hroom : memory_offset + 24576 ≤ MEMORY_POOL_SIZE) :
    ∃ start offset : Int, readTape memory_offset ['1'] = some
      ⟨List.replicate 2047 '_' ++ '1' :: List.replicate 2048 '_', start, 2047, offset⟩ := by
  obtain ⟨ts, hts, htape, hhead, _⟩ := readTape_cells memory_offset ['1']
    (by decide) (by decide) (by decide) hroom
  obtain ⟨tape, start, head, offset⟩ := ts
  have e1 : (INITIAL_TAPE_SIZE - ['1'].length) / 2 = 2047 := by decide
  have e2 : INITIAL_TAPE_SIZE - ['1'].length - 2047 = 2048 := by decide
  have e3 : List.map (fun c => if c = ' ' then BLANK else c) ['1'] = ['1'] := by decide
  simp only at htape hhead
  rw [e1] at htape hhead
  rw [e2, e3] at htape
  have htape1 : tape = List.replicate 2047 '_' ++ '1' :: List.replicate 2048 '_' := by
    rw [htape, List.append_assoc]
    rfl
  have hhead1 : head = 2047 := by rw [hhead]; rfl
  rw [htape1, hhead1] at hts
  exact ⟨start, offset, hts⟩

/-- C13: scenario A.  For every program text of at most 4096 bytes made of three
header lines and the record line `(start, 1) -> (stop, 1) >`, and the initial
tape text "1", read with at least 24576 bytes left in the arena, whatever the
bytes around the tape are: the parser yields the one transition, and the engine
run on the table built from it halts in state "stop" after exactly one step, and
the tape output is "1". -/
theorem scenario_a (h1 h2 h3 : List Char) (memory_offset : Int) (below above : List Char)
    (hh1 : '\n' ∉ h1) (hh2 : '\n' ∉ h2) (hh3 : '\n' ∉ h3)
    (hlen : (program_text h1 h2 h3 [⟨START, '1', STOP, '1', '>'⟩]).length ≤ 4096)
    (hroom : memory_offset + 24576 ≤ MEMORY_POOL_SIZE) :
    ∃ (ts : TapeState) (m : Machine),
      parseFile (program_text h1 h2 h3 [⟨START, '1', STOP, '1', '>'⟩])
        = Except.ok [⟨START, '1', STOP, '1', '>'⟩] ∧
      readTape memory_offset ['1'] = some ts ∧
      runMachine (build_table [⟨START, '1', STOP, '1', '>'⟩]) ts below above
        = some (Outcome.halted, m) ∧
      m.step_count = 1 ∧ m.current_state = STOP ∧ printTape m.ts = ['1', '\n'] := by
  have hparse := parseFile_program h1 h2 h3 [⟨START, '1', STOP, '1', '>'⟩] hh1 hh2 hh3
    (by
      intro t ht
      rw [List.mem_singleton] at ht
      subst ht
      unfold record_ok name_ok
      decide)
    hlen
  obtain ⟨start, offset, hts⟩ := readTape_one memory_offset hroom
  obtain ⟨hlen1, hget1, hset1, hprint1⟩ := tape_one_cells 2047 2048 '1' (by decide)
  have hin : (0 : Int) ≤ 2047 ∧ (2047 : Int) <
      (⟨List.replicate 2047 '_' ++ '1' :: List.replicate 2048 '_', start, 2047,
        offset⟩ : TapeState).tape_size := by
    unfold TapeState.tape_size
    rw [hlen1]
    decide
  have hens := ensure_in_range_of_in_range
    ⟨List.replicate 2047 '_' ++ '1' :: List.replicate 2048 '_', start, 2047, offset⟩ hin
  have hrange := range_check_of_in_range
    { ts := ⟨List.replicate 2047 '_' ++ '1' :: List.replicate 2048 '_', start, 2047, offset⟩,
      current_state := START, step_count := 0, below := below, above := above } hin
  have hread : tape_read (ensure_in_range
      ⟨List.replicate 2047 '_' ++ '1' :: List.replicate 2048 '_', start, 2047, offset⟩)
      = some '1' := by
    rw [hens, tape_read_eq _ 2047 rfl]
    exact hget1
  have hget : get_transition_from_hash (build_table [⟨START, '1', STOP, '1', '>'⟩]) START '1'
      = some ⟨START, '1', STOP, '1', '>'⟩ := by decide
  have hstep : run_step (build_table [⟨START, '1', STOP, '1', '>'⟩])
      { ts := ⟨List.replicate 2047 '_' ++ '1' :: List.replicate 2048 '_', start, 2047, offset⟩,
        current_state := START, step_count := 0, below := below, above := above }
      = Step.next
        { ts := ⟨List.replicate 2047 '_' ++ '1' :: List.replicate 2048 '_', start, 2048,
            offset⟩,
          current_state := STOP, step_count := 1, below := below, above := above } := by
    rw [run_step_found (build_table [⟨START, '1', STOP, '1', '>'⟩])
      { ts := ⟨List.replicate 2047 '_' ++ '1' :: List.replicate 2048 '_', start, 2047, offset⟩,
        current_state := START, step_count := 0, below := below, above := above }
      '1' ⟨START, '1', STOP, '1', '>'⟩
      (show (0 : Nat) < STEP_LIMIT by unfold STEP_LIMIT; omega) hread hget, hens, hrange]
    simp only [show ((2047 : Int).toNat) = 2047 from rfl, hset1]
    rfl
  refine ⟨_, { ts := ⟨List.replicate 2047 '_' ++ '1' :: List.replicate 2048 '_', start, 2048,
      offset⟩, current_state := STOP, step_count := 1, below := below, above := above },
    hparse, hts, ?_, rfl, rfl, ?_⟩
  · rw [runMachine, run_loop, if_neg (show ¬ (my_strcmp START STOP = 0) by decide), hstep]
    exact run_loop_stop _ _ _ (show my_strcmp STOP STOP = 0 by decide)
  · simp only [printTape, hprint1]
    rfl

/-- A witness for C13: the header lines "h", "h", "h", an empty arena and no
bytes written around the tape. -/
theorem scenario_a_witness :
    ('\n' ∉ ['h'] ∧
      (program_text ['h'] ['h'] ['h'] [⟨START, '1', STOP, '1', '>'⟩]).length ≤ 4096 ∧
      (0 : Int) + 24576 ≤ MEMORY_POOL_SIZE) ∧
    ∃ (ts : TapeState) (m : Machine),
      parseFile (program_text ['h'] ['h'] ['h'] [⟨START, '1', STOP, '1', '>'⟩])
        = Except.ok [⟨START, '1', STOP, '1', '>'⟩] ∧
      readTape 0 ['1'] = some ts ∧
      runMachine (build_table [⟨START, '1', STOP, '1', '>'⟩]) ts [] []
        = some (Outcome.halted, m) ∧
      m.step_count = 1 ∧ m.current_state = STOP ∧ printTape m.ts = ['1', '\n'] :=
  ⟨by decide,
   scenario_a ['h'] ['h'] ['h'] 0 [] [] (by decide) (by decide) (by decide) (by decide)
     (by decide)⟩

/-- C14: scenario B.  When the table built from `rules` has no rule for
"start" and the symbol `c` under the head of the initial tape, then, whatever
the bytes around the tape are, the engine stops with the no-transition outcome
after 0 transitions, the tape is as it was, and so is its output; for the
initial text "1" the output is "1". -/
theorem scenario_b (rules : List Transition) (ts : TapeState) (c : Char)
    (below above : List Char)
    (hread : tape_read ts = some c)
    (hnone : ∀ t ∈ rules, ¬ (cstr t.start_state = cstr START ∧ t.read_symbol = c)) :
    (∃ m, runMachine (build_table rules) ts below above = some (Outcome.noTransition, m) ∧
      m.step_count = 0 ∧ m.ts = ts ∧ printTape m.ts = printTape ts) ∧
    (∀ memory_offset : Int, memory_offset + 24576 ≤ MEMORY_POOL_SIZE →
      ∃ ts1, readTape memory_offset ['1'] = some ts1 ∧ tape_read ts1 = some '1' ∧
        printTape ts1 = ['1', '\n']) := by
  constructor
  · have hrange := range_check_of_in_range
      { ts := ts, current_state := START, step_count := 0, below := below, above := above }
      (tape_read_range ts c hread)
    have hget : get_transition_from_hash (build_table rules) START c = none := by
      rw [lookup_build_table, List.find?_eq_none]
      intro t ht
      simpa [key_matches] using hnone t (List.mem_reverse.1 ht)
    have hcell : cell_read
        { ts := ts, current_state := START, step_count := 0, below := below, above := above }
        = c := cell_read_of_tape_read _ c hread
    refine ⟨⟨ts, START, 0, below, above⟩, ?_, rfl, rfl, rfl⟩
    rw [runMachine, run_loop, if_neg (show ¬ (my_strcmp START STOP = 0) by decide)]
    unfold run_step
    rw [if_neg (show ¬ ((0 : Nat) ≥ STEP_LIMIT) by decide)]
    simp only [hrange, hcell, hget]
  · intro memory_offset hroom
    obtain ⟨start, offset, hts⟩ := readTape_one memory_offset hroom
    obtain ⟨_, hget1, _, hprint1⟩ := tape_one_cells 2047 2048 '1' (by decide)
    refine ⟨_, hts, ?_, ?_⟩
    · rw [tape_read_eq _ 2047 rfl]
      exact hget1
    · simp only [printTape, hprint1]
      rfl

/-- A witness for C14: the tape "1" under the head and a table whose only rule
is for the symbol '0'; and the tape built from the text "1" in an empty arena. -/
theorem scenario_b_witness :
    (tape_read { tape := ['_', '1', '_'], tape_start := 0, tape_head := 1, memory_offset := 3 }
        = some '1' ∧
      ∀ t ∈ [(⟨START, '0', STOP, '0', '>'⟩ : Transition)],
        ¬ (cstr t.start_state = cstr START ∧ t.read_symbol = '1')) ∧
    (∃ m, runMachine (build_table [⟨START, '0', STOP, '0', '>'⟩])
        { tape := ['_', '1', '_'], tape_start := 0, tape_head := 1, memory_offset := 3 } [] []
        = some (Outcome.noTransition, m) ∧
      m.step_count = 0 ∧
      m.ts = { tape := ['_', '1', '_'], tape_start := 0, tape_head := 1, memory_offset := 3 } ∧
      printTape m.ts = printTape
        { tape := ['_', '1', '_'], tape_start := 0, tape_head := 1, memory_offset := 3 }) ∧
    (∃ ts1, readTape 0 ['1'] = some ts1 ∧ tape_read ts1 = some '1' ∧
      printTape ts1 = ['1', '\n']) :=
  ⟨by decide,
   (scenario_b [⟨START, '0', STOP, '0', '>'⟩]
      { tape := ['_', '1', '_'], tape_start := 0, tape_head := 1, memory_offset := 3 } '1' [] []
      (by decide) (by decide)).1,
   (scenario_b [⟨START, '0', STOP, '0', '>'⟩]
      { tape := ['_', '1', '_'], tape_start := 0, tape_head := 1, memory_offset := 3 } '1' [] []
      (by decide) (by decide)).2 0 (by decide)⟩

/-- C17: a pass through the loop body that finds the transition `t`.  The tape
it works on is the tape after the range check.  Afterwards the cell that was
under the head holds `t.write_symbol` and every other cell is unchanged, the
current state is the C string `t.next_state`, the head has moved by +1 for '>'
and by -1 for '<', and the step counter is one more. -/
theorem step_frame (table : HashTable) (m : Machine) (c : Char) (t : Transition)
    (hlim : m.step_count < STEP_LIMIT)
    (hread : tape_read (ensure_in_range m.ts) = some c)
    (hget : get_transition_from_hash table m.current_state c = some t) :
    ∃ m1, run_step table m = Step.next m1 ∧
      m1.ts.tape.length = (ensure_in_range m.ts).tape.length ∧
      (∀ j : Nat, m1.ts.tape[j]? =
        if (j : Int) = (ensure_in_range m.ts).tape_head then some t.write_symbol
        else (ensure_in_range m.ts).tape[j]?) ∧
      m1.current_state = cstr t.next_state ∧
      (t.direction = '>' → m1.ts.tape_head = (ensure_in_range m.ts).tape_head + 1) ∧
      (t.direction = '<' → m1.ts.tape_head = (ensure_in_range m.ts).tape_head - 1) ∧
      m1.step_count = m.step_count + 1 := by
  obtain ⟨h0, h1⟩ := tape_read_range _ c hread
  unfold TapeState.tape_size at h1
  refine ⟨_, run_step_found table m c t hlim hread hget, ?_, ?_, rfl, ?_, ?_, rfl⟩
  · simp only [List.length_set]
  · intro j
    simp only [List.getElem?_set]
    by_cases hj : (j : Int) = (ensure_in_range m.ts).tape_head
    · rw [if_pos hj, if_pos (by omega), if_pos (by omega)]
    · rw [if_neg hj, if_neg (by omega)]
  · intro hd
    simp only [move_head, hd, if_true]
  · intro hd
    have hne : t.direction ≠ '>' := by rw [hd]; decide
    simp only [move_head, hd, hne, if_false, if_true]
    rw [if_neg (by decide)]

/-- A witness for C17: a step to the left on a tape of three cells. -/
theorem step_frame_witness :
    ((0 : Nat) < STEP_LIMIT ∧
      tape_read (ensure_in_range
        { tape := ['_', '1', '_'], tape_start := 0, tape_head := 1, memory_offset := 3 })
        = some '1' ∧
      get_transition_from_hash (build_table [⟨START, '1', STOP, '0', '<'⟩]) START '1'
        = some ⟨START, '1', STOP, '0', '<'⟩) ∧
    ∃ m1, run_step (build_table [⟨START, '1', STOP, '0', '<'⟩])
        { ts := { tape := ['_', '1', '_'], tape_start := 0, tape_head := 1,
                  memory_offset := 3 },
          current_state := START, step_count := 0, below := [], above := [] } = Step.next m1 ∧
      m1.ts.tape = ['_', '0', '_'] ∧ m1.ts.tape_head = 0 ∧ m1.step_count = 1 := by
  refine ⟨⟨by unfold STEP_LIMIT; omega, by decide, by decide⟩, ?_⟩
  obtain ⟨m1, h1, _, _, _, _, _, _⟩ := step_frame (build_table [⟨START, '1', STOP, '0', '<'⟩])
    { ts := { tape := ['_', '1', '_'], tape_start := 0, tape_head := 1, memory_offset := 3 },
      current_state := START, step_count := 0, below := [], above := [] }
    '1' ⟨START, '1', STOP, '0', '<'⟩
    (show (0 : Nat) < STEP_LIMIT by unfold STEP_LIMIT; omega) (by decide) (by decide)
  refine ⟨m1, h1, ?_⟩
  have h2 : run_step (build_table [⟨START, '1', STOP, '0', '<'⟩])
      { ts := { tape := ['_', '1', '_'], tape_start := 0, tape_head := 1,
                memory_offset := 3 },
        current_state := START, step_count := 0, below := [], above := [] }
      = Step.next
        { ts := { tape := ['_', '0', '_'], tape_start := 0, tape_head := 0,
                  memory_offset := 3 },
          current_state := STOP, step_count := 1, below := [], above := [] } := by decide
  rw [h2] at h1
  cases h1
  exact ⟨rfl, rfl, rfl⟩

/-! ## The engine: halting -/

theorem cstr_cstr (l : List Char) : cstr (cstr l) = cstr l := by
  induction l with
  | nil => rfl
  | cons c cs ih =>
    by_cases h : c = NUL
    · simp [cstr, h]
    · simp [cstr, h, ih]

theorem cstr_STOP : cstr STOP = STOP := by decide

/-- What the lookup returns has the key it was asked for, in every table. -/
theorem get_transition_sound (table : HashTable) (state : List Char) (symbol : Char)
    (t : Transition) (h : get_transition_from_hash table state symbol = some t) :
    cstr t.start_state = cstr state ∧ t.read_symbol = symbol := by
  unfold get_transition_from_hash at h
  rw [find_in_chain_eq_find] at h
  have := List.find?_some h
  simpa [key_matches] using this

/-- A pass through the loop body that goes on has applied a transition found
for the current state. -/
theorem run_step_next_applied (table : HashTable) (m m1 : Machine)
    (h : run_step table m = Step.next m1) :
    ∃ t, applied table m = some t ∧ m1.current_state = cstr t.next_state ∧
      cstr t.start_state = cstr m.current_state := by
  unfold run_step at h
  unfold applied
  by_cases hlim : m.step_count ≥ STEP_LIMIT
  · rw [if_pos hlim] at h
    exact Step.noConfusion h
  · rw [if_neg hlim] at h ⊢
    simp only at h
    cases hget : get_transition_from_hash table (range_check m).current_state
        (cell_read (range_check m)) with
    | none => rw [hget] at h; exact Step.noConfusion h
    | some t =>
      rw [hget] at h
      simp only [Step.next.injEq] at h
      refine ⟨t, hget, ?_, (get_transition_sound table _ _ t hget).1⟩
      rw [← h]
      rfl

/-- The transitions of a run: their number is the number of steps, the state at
the end is the next state of the last of them, and none of them starts in
"stop". -/
theorem run_trace_spec (table : HashTable) : ∀ (fuel : Nat) (m : Machine),
    m.step_count ≤ STEP_LIMIT → STEP_LIMIT + 1 ≤ m.step_count + fuel →
    ∃ o m1, run_loop table fuel m = some (o, m1) ∧
      (o = Outcome.halted ↔ my_strcmp m1.current_state STOP = 0) ∧
      (run_trace table fuel m).length + m.step_count = m1.step_count ∧
      (run_trace table fuel m = [] → m1.current_state = m.current_state) ∧
      (∀ t, (run_trace table fuel m).getLast? = some t →
        m1.current_state = cstr t.next_state) ∧
      (∀ t ∈ run_trace table fuel m, cstr t.start_state ≠ STOP) := by
  intro fuel
  induction fuel with
  | zero => intro m h1 h2; omega
  | succ fuel ih =>
    intro m h1 h2
    rw [run_loop, run_trace]
    by_cases hstop : my_strcmp m.current_state STOP = 0
    · rw [if_pos hstop, if_pos hstop]
      exact ⟨Outcome.halted, m, rfl, by simp [hstop], by simp, fun _ => rfl,
        by simp, by simp⟩
    · rw [if_neg hstop, if_neg hstop]
      cases hstep : run_step table m with
      | done o m1 =>
        obtain ⟨hc, hs, hne, _⟩ := run_step_done table m m1 o hstep
        refine ⟨o, m1, rfl, ?_, by simp [hc], fun _ => hs, by simp, by simp⟩
        rw [hs]
        simp [hne, hstop]
      | next m1 =>
        obtain ⟨hlt, hc⟩ := run_step_next_count table m m1 hstep
        obtain ⟨t, happ, hcs, hkey⟩ := run_step_next_applied table m m1 hstep
        obtain ⟨o, m2, hrun, hhalt, hlen, hnil, hlast, hstart⟩ :=
          ih m1 (by omega) (by omega)
        simp only [happ, Option.toList_some, List.singleton_append]
        refine ⟨o, m2, hrun, hhalt, ?_, ?_, ?_, ?_⟩
        · rw [List.length_cons]
          omega
        · intro h
          exact absurd h (List.cons_ne_nil _ _)
        · intro u hu
          cases htr : run_trace table fuel m1 with
          | nil =>
            rw [htr] at hu
            simp only [List.getLast?_singleton, Option.some.injEq] at hu
            rw [hnil htr, hcs, hu]
          | cons x xs =>
            rw [htr, List.getLast?_cons_cons] at hu
            rw [htr] at hlast
            exact hlast u hu
        · intro u hu
          rcases List.mem_cons.1 hu with h | h
          · rw [h, hkey]
            intro e
            apply hstop
            rw [my_strcmp_eq_zero_iff, e, cstr_STOP]
          · exact hstart u h

/-- C18: for every table, every initial tape and all bytes around it, the
engine ends as halted exactly when the last transition it applied has the next
state "stop", compared character by character ("Stop" and "stop " are other
states); no applied transition starts in "stop"; and a loop entered in state
"stop" ends at once, without a lookup or a write. -/
theorem halted_iff_last_stop (table : HashTable) (ts : TapeState) (below above : List Char) :
    ∃ o m, runMachine table ts below above = some (o, m) ∧
      (o = Outcome.halted ↔
        ∃ t, (run_trace table (STEP_LIMIT + 1) ⟨ts, START, 0, below, above⟩).getLast? = some t ∧
          cstr t.next_state = STOP) ∧
      (∀ t ∈ run_trace table (STEP_LIMIT + 1) ⟨ts, START, 0, below, above⟩,
        cstr t.start_state ≠ STOP) ∧
      (run_trace table (STEP_LIMIT + 1) ⟨ts, START, 0, below, above⟩).length = m.step_count ∧
      (my_strcmp ['S', 't', 'o', 'p'] STOP ≠ 0 ∧ my_strcmp ['s', 't', 'o', 'p', ' '] STOP ≠ 0) ∧
      (∀ (fuel : Nat) (m0 : Machine), my_strcmp m0.current_state STOP = 0 →
        run_loop table (fuel + 1) m0 = some (Outcome.halted, m0) ∧
        run_trace table (fuel + 1) m0 = []) := by
  obtain ⟨o, m, hrun, hhalt, hlen, hnil, hlast, hstart⟩ :=
    run_trace_spec table (STEP_LIMIT + 1) ⟨ts, START, 0, below, above⟩ (Nat.zero_le _)
      (by simp)
  refine ⟨o, m, hrun, ?_, hstart, by simpa using hlen, ⟨by decide, by decide⟩, ?_⟩
  · rw [hhalt, my_strcmp_eq_zero_iff, cstr_STOP]
    constructor
    · intro h
      cases htr : run_trace table (STEP_LIMIT + 1) ⟨ts, START, 0, below, above⟩ with
      | nil =>
        have := hnil htr
        rw [this] at h
        exact absurd h (show ¬ (cstr START = STOP) by decide)
      | cons x xs =>
        obtain ⟨t, ht⟩ : ∃ t, (x :: xs).getLast? = some t :=
          ⟨(x :: xs).getLast (List.cons_ne_nil _ _), List.getLast?_eq_getLast _ _⟩
        refine ⟨t, ht, ?_⟩
        rw [htr] at hlast
        rw [hlast t ht, cstr_cstr] at h
        exact h
    · rintro ⟨t, ht, hstop⟩
      rw [hlast t ht, cstr_cstr, hstop]
  · intro fuel m0 h
    exact ⟨run_loop_stop table fuel m0 h, by rw [run_trace, if_pos h]⟩

/-! ## A run that reads before the tape -/

/-- The first loop of `readTape` keeps the characters read below the size of
the buffer: the block of the buffer has room for them and the terminator. -/
theorem read_tape_line_room (stdin : List Char) :
    ∀ (buffer : List Char) (buffer_size memory_offset : Int)
      (buffer1 : List Char) (buffer_size1 memory_offset1 : Int),
    (buffer.length : Int) < buffer_size →
    read_tape_line stdin buffer buffer_size memory_offset
      = some (buffer1, buffer_size1, memory_offset1) →
    (buffer1.length : Int) < buffer_size1 := by
  induction stdin with
  | nil =>
    intro buffer bs mo b1 bs1 mo1 hlt h
    simp only [read_tape_line, Option.some.injEq, Prod.mk.injEq] at h
    rw [← h.1, ← h.2.1]
    exact hlt
  | cons ch rest ih =>
    intro buffer bs mo b1 bs1 mo1 hlt h
    rw [read_tape_line] at h
    by_cases hch : ch = '\n'
    · rw [if_pos hch] at h
      simp only [Option.some.injEq, Prod.mk.injEq] at h
      rw [← h.1, ← h.2.1]
      exact hlt
    · rw [if_neg hch] at h
      by_cases hfull : (buffer.length : Int) ≥ bs - 1
      · rw [if_pos hfull] at h
        cases halloc : custom_malloc mo (bs * 2) with
        | none => rw [halloc] at h; exact Option.noConfusion h
        | some offset =>
          rw [halloc] at h
          simp only at h
          refine ih _ _ _ _ _ _ ?_ h
          have hc := cstr_length_le buffer
          simp only [my_strcpy, List.length_append, List.length_replicate,
            List.length_singleton]
          push_cast
          omega
      · rw [if_neg hfull] at h
        refine ih _ _ _ _ _ _ ?_ h
        simp only [List.length_append, List.length_singleton]
        push_cast
        omega

/-- The block of the tape that `readTape` builds: it has more bytes than the
buffer held characters, and the head is where the first of them was stored. -/
theorem readTape_block (memory_offset : Int) (stdin : List Char) (s : TapeState)
    (h : readTape memory_offset stdin = some s) :
    ∃ index : Nat, (index : Int) < s.memory_offset - s.tape_start ∧
      s.tape_head = Int.tdiv ((INITIAL_TAPE_SIZE : Int) - (index : Int)) 2 := by
  unfold readTape at h
  cases h1 : custom_malloc memory_offset 256 with
  | none => rw [h1] at h; exact Option.noConfusion h
  | some offset =>
    rw [h1] at h
    simp only at h
    cases h2 : read_tape_line stdin [] 256 offset with
    | none => rw [h2] at h; exact Option.noConfusion h
    | some r =>
      obtain ⟨buffer, buffer_size, start⟩ := r
      rw [h2] at h
      simp only at h
      have hroom := read_tape_line_room stdin [] 256 offset buffer buffer_size start
        (by decide) h2
      cases h3 : custom_malloc start buffer_size with
      | none => rw [h3] at h; exact Option.noConfusion h
      | some offset1 =>
        rw [h3] at h
        simp only [Option.some.injEq] at h
        unfold custom_malloc at h3
        by_cases hfit : start + buffer_size > MEMORY_POOL_SIZE
        · rw [if_pos hfit] at h3
          exact Option.noConfusion h3
        · rw [if_neg hfit] at h3
          rw [← h, ← Option.some.inj h3]
          exact ⟨buffer.length, by simp only; omega, rfl⟩

/-- The byte before a grown tape when the block of the old tape was longer than
the tape: it is the last byte of that block, which is zero when nothing was
written there. -/
theorem peek_below_grown (cells below above : List Char) (gap : Nat)
    (hgap : cells.length < gap) (habove : above.length + cells.length < gap) :
    peek ((cells.take gap
        ++ (List.range (gap - cells.length)).map (peek above)).reverse ++ below) 0 = NUL := by
  obtain ⟨k, hk⟩ : ∃ k, gap - cells.length = k + 1 := ⟨gap - cells.length - 1, by omega⟩
  rw [hk, List.range_succ, List.map_append, List.map_singleton, ← List.append_assoc,
    List.reverse_append, List.reverse_singleton, List.singleton_append, List.cons_append]
  unfold peek
  rw [List.getD_cons_zero, List.getD_eq_getElem?_getD, List.getElem?_eq_none (by omega)]
  rfl

/-- The run on the tape of an initial text of 8194 characters '1' with the one
rule `("start", NUL) -> ("stop", '0', Right)`: the first pass reads `tape[-1]`,
the last byte of the block of the first tape, which is zero as long as nothing
wrote there (`above` holds what was written behind the first tape, here at most
4098 bytes).  The rule is found and applied, its symbol is stored in that byte,
and the run halts after one step. -/
theorem run_goes_on_before_tape (below above : List Char) (habove : above.length ≤ 4098) :
    ∃ s m, readTape 0 (List.replicate 8194 '1') = some s ∧
      runMachine (build_table [⟨START, NUL, STOP, '0', '>'⟩]) s below above
        = some (Outcome.halted, m) ∧
      m.step_count = 1 ∧ m.ts.tape_head = 0 ∧ m.below.head? = some '0' := by
  obtain ⟨s, hs, hlen, hhead, hmem⟩ := readTape_ok 16388 0 (List.replicate 8194 '1')
    (by
      intro c hc
      rw [List.eq_of_mem_replicate hc]
      decide)
    (by decide) (by rw [List.length_replicate]; decide) (by decide)
  rw [List.length_replicate] at hhead
  have hhead1 : s.tape_head = -2049 := by rw [hhead]; decide
  have hlen1 : s.tape.length = 4096 := hlen
  obtain ⟨index, hindex, hhead2⟩ := readTape_block 0 _ s hs
  have hindex1 : 8194 ≤ index := by
    rw [hhead1] at hhead2
    unfold INITIAL_TAPE_SIZE at hhead2
    by_contra hlt
    have h1 : Int.tdiv ((4096 : Nat) - (index : Int)) 2 ≥ -2048 := by
      by_cases hle : index ≤ 4096
      · rw [Int.tdiv_eq_ediv (by omega) (by omega)]
        omega
      · have hneg : ((4096 : Nat) : Int) - (index : Int) = -((index : Int) - 4096) := by omega
        rw [hneg, Int.neg_tdiv, Int.tdiv_eq_ediv (by omega) (by omega)]
        omega
    omega
  have hroom : s.memory_offset + 2 * (s.tape.length : Int) ≤ MEMORY_POOL_SIZE := by
    rw [hlen1]
    unfold MEMORY_POOL_SIZE
    omega
  have hexp := expand_tape_size_head s hroom
  have hens : ensure_in_range s = expand_tape s := by
    unfold ensure_in_range
    rw [if_pos (Or.inr (by omega))]
  have hh : (expand_tape s).tape_head = -1 := by
    rw [hexp.2, hhead1, hlen1]
    decide
  have hgrows : grows s = true := by
    unfold grows
    rw [decide_eq_true (Or.inr (by omega)), custom_malloc_of_room s hroom]
    rfl
  obtain ⟨gap, hgap⟩ : ∃ gap : Nat, (s.memory_offset - s.tape_start).toNat = gap := ⟨_, rfl⟩
  have hgap1 : 8194 < gap := by omega
  have hcell : cell_read (range_check ⟨s, START, 0, below, above⟩) = NUL := by
    unfold cell_read
    rw [if_pos (show (range_check ⟨s, START, 0, below, above⟩).ts.tape_head < 0 by
      show (ensure_in_range s).tape_head < 0
      rw [hens, hh]
      decide)]
    have hidx : (-1 - (range_check ⟨s, START, 0, below, above⟩).ts.tape_head).toNat = 0 := by
      show (-1 - (ensure_in_range s).tape_head).toNat = 0
      rw [hens, hh]
      rfl
    rw [hidx]
    show peek (if grows s then _ else below) 0 = NUL
    rw [hgrows, if_pos rfl, hgap]
    exact peek_below_grown s.tape below above gap (by omega) (by omega)
  have hget : get_transition_from_hash (build_table [⟨START, NUL, STOP, '0', '>'⟩])
      (range_check ⟨s, START, 0, below, above⟩).current_state
      (cell_read (range_check ⟨s, START, 0, below, above⟩))
      = some ⟨START, NUL, STOP, '0', '>'⟩ := by
    rw [hcell]
    exact (show get_transition_from_hash (build_table [⟨START, NUL, STOP, '0', '>'⟩]) START NUL
      = some ⟨START, NUL, STOP, '0', '>'⟩ by decide)
  have hneg : (range_check ⟨s, START, 0, below, above⟩).ts.tape_head = -1 := by
    show (ensure_in_range s).tape_head = -1
    rw [hens, hh]
  have hwrite : cell_write (range_check ⟨s, START, 0, below, above⟩) '0'
      = { ts := (range_check ⟨s, START, 0, below, above⟩).ts
          current_state := START, step_count := 0
          below := poke (range_check ⟨s, START, 0, below, above⟩).below 0 '0'
          above := (range_check ⟨s, START, 0, below, above⟩).above } := by
    unfold cell_write
    rw [if_pos (by rw [hneg]; decide), hneg]
    rfl
  have hstep : run_step (build_table [⟨START, NUL, STOP, '0', '>'⟩])
      ⟨s, START, 0, below, above⟩
      = Step.next
        { ts := { tape := (expand_tape s).tape, tape_start := (expand_tape s).tape_start,
                  tape_head := 0, memory_offset := (expand_tape s).memory_offset }
          current_state := STOP, step_count := 1
          below := poke (range_check ⟨s, START, 0, below, above⟩).below 0 '0'
          above := (range_check ⟨s, START, 0, below, above⟩).above } := by
    unfold run_step
    rw [if_neg (show ¬ ((0 : Nat) ≥ STEP_LIMIT) by decide)]
    simp only [hget, hwrite]
    show Step.next
      { ts := { tape := (ensure_in_range s).tape, tape_start := (ensure_in_range s).tape_start,
                tape_head := move_head (ensure_in_range s).tape_head '>',
                memory_offset := (ensure_in_range s).memory_offset }
        current_state := my_strcpy STOP, step_count := 0 + 1
        below := poke (range_check ⟨s, START, 0, below, above⟩).below 0 '0'
        above := (range_check ⟨s, START, 0, below, above⟩).above } = _
    rw [hens, hh]
    rfl
  refine ⟨s,
    { ts := { tape := (expand_tape s).tape, tape_start := (expand_tape s).tape_start,
              tape_head := 0, memory_offset := (expand_tape s).memory_offset }
      current_state := STOP, step_count := 1
      below := poke (range_check ⟨s, START, 0, below, above⟩).below 0 '0'
      above := (range_check ⟨s, START, 0, below, above⟩).above }, hs, ?_, rfl, rfl, ?_⟩
  · rw [runMachine, run_loop, if_neg (show ¬ (my_strcmp START STOP = 0) by decide), hstep]
    exact run_loop_stop _ _ _ (show my_strcmp STOP STOP = 0 by decide)
  · show (poke (range_check ⟨s, START, 0, below, above⟩).below 0 '0').head? = some '0'
    unfold poke
    by_cases hl : 0 < (range_check ⟨s, START, 0, below, above⟩).below.length
    · rw [if_pos hl]
      cases hb : (range_check ⟨s, START, 0, below, above⟩).below with
      | nil => rw [hb] at hl; exact absurd hl (by decide)
      | cons x xs => rfl
    · rw [if_neg hl]
      have : (range_check ⟨s, START, 0, below, above⟩).below = [] :=
        List.length_eq_zero.1 (by omega)
      rw [this]
      rfl

/-! ## Scenario C: a run to the right -/

/-- The copy loop of `expand_tape` keeps a property of the cells it can read
(those of the old tape, below `n`) and of the cells of the new block (from `gap`
on), wherever the two overlap. -/
theorem copy_cells_inv (P : Char → Prop) (n gap dst : Nat) :
    ∀ (count i : Nat) (mem : List Char), i + count ≤ n → n ≤ mem.length →
    (∀ (j : Nat) (c : Char), (j < n ∨ gap ≤ j) → mem[j]? = some c → P c) →
    ∀ (j : Nat) (c : Char), (j < n ∨ gap ≤ j) →
      (copy_cells dst i count mem)[j]? = some c → P c := by
  intro count
  induction count with
  | zero => intro i mem _ _ h; exact h
  | succ count ih =>
    intro i mem h1 h2 h
    rw [copy_cells]
    apply ih (i + 1) _ (by omega) (by rw [List.length_set]; exact h2)
    intro j c hj hc
    rw [List.getElem?_set] at hc
    by_cases hji : dst + i = j
    · rw [if_pos hji] at hc
      by_cases hlt : dst + i < mem.length
      · rw [if_pos hlt] at hc
        have hi : i < mem.length := by omega
        apply h i c (Or.inl (by omega))
        rw [← Option.some.inj hc, List.getD_eq_getElem?_getD, List.getElem?_eq_getElem hi]
        rfl
      · rw [if_neg hlt] at hc
        exact Option.noConfusion hc
    · rw [if_neg hji] at hc
      exact h j c hj hc

/-- Every cell of a grown tape is blank or holds the symbol of a cell of the old
tape, wherever the old tape lies. -/
theorem expand_tape_symbols (s : TapeState)
    (hroom : s.memory_offset + 2 * (s.tape.length : Int) ≤ MEMORY_POOL_SIZE) :
    ∀ c ∈ (expand_tape s).tape, c = BLANK ∨ c ∈ s.tape := by
  intro c hc
  rw [expand_tape_of_room s hroom] at hc
  simp only at hc
  obtain ⟨gap, hgap⟩ : ∃ gap : Nat, (s.memory_offset - s.tape_start).toNat = gap := ⟨_, rfl⟩
  rw [hgap] at hc
  obtain ⟨j, hj⟩ := List.mem_iff_getElem?.1 hc
  rw [List.getElem?_drop] at hj
  have hold : (s.tape.take gap ++ List.replicate (gap - s.tape.length) NUL).length = gap := by
    rw [List.length_append, List.length_take, List.length_replicate]
    omega
  refine copy_cells_inv (fun c => c = BLANK ∨ c ∈ s.tape) s.tape.length gap
    (gap + s.tape.length / 2) s.tape.length 0 _ (by omega)
    (by rw [List.length_append, hold, List.length_replicate]; omega) ?_ (gap + j) c (Or.inr (by omega)) hj
  intro k d hk hd
  by_cases hkg : k < gap
  · have hkn : k < s.tape.length := by omega
    rw [List.append_assoc, List.getElem?_append_left
      (by rw [List.length_take]; omega), List.getElem?_take_of_lt hkg] at hd
    exact Or.inr (List.mem_iff_getElem?.2 ⟨_, hd⟩)
  · rw [List.getElem?_append_right (by rw [hold]; omega), hold] at hd
    exact Or.inl (List.eq_of_mem_replicate (List.mem_iff_getElem?.2 ⟨_, hd⟩))

theorem right_rule_lookup (rules : List Transition)
    (honly : ∀ t ∈ rules, ∃ c, t = right_rule c) (c : Char) (hc : right_rule c ∈ rules) :
    get_transition_from_hash (build_table rules) START c = some (right_rule c) := by
  rw [lookup_build_table]
  cases hfind : rules.reverse.find? (key_matches START c) with
  | none =>
    rw [List.find?_eq_none] at hfind
    have := hfind (right_rule c) (List.mem_reverse.2 hc)
    simp [key_matches, right_rule] at this
  | some t =>
    have h1 := List.mem_reverse.1 (List.mem_of_find?_eq_some hfind)
    have h2 := List.find?_some hfind
    simp only [key_matches, decide_eq_true_eq] at h2
    obtain ⟨d, hd⟩ := honly t h1
    rw [hd] at h2 ⊢
    have hdc : d = c := h2.2
    rw [hdc]

/-- One pass of a run of scenario C. -/
theorem right_step (rules : List Transition) (bound : Int) (m : Machine)
    (honly : ∀ t ∈ rules, ∃ c, t = right_rule c) (hblank : right_rule BLANK ∈ rules)
    (hbound : bound + 8 * (STEP_LIMIT : Int) ≤ MEMORY_POOL_SIZE)
    (hinv : right_inv rules bound m) (hlim : m.step_count < STEP_LIMIT) :
    ∃ m1, run_step (build_table rules) m = Step.next m1 ∧
      m1.step_count = m.step_count + 1 ∧ right_inv rules bound m1 := by
  obtain ⟨hstate, hsym, h1, h2, h3, h4, h5⟩ := hinv
  have hens : ∃ e, ensure_in_range m.ts = e ∧
      (∀ c ∈ e.tape, right_rule c ∈ rules) ∧ (m.step_count : Int) ≤ e.tape_head ∧
      e.tape_head < (e.tape.length : Int) ∧
      2 * e.tape_head - (e.tape.length : Int) ≤ 2 * (m.step_count : Int) ∧
      e.memory_offset ≤ bound + 2 * (e.tape.length : Int) := by
    by_cases hin : m.ts.tape_head < (m.ts.tape.length : Int)
    · exact ⟨m.ts, ensure_in_range_of_in_range _ ⟨by omega, hin⟩, hsym, h1, hin, h3, h4⟩
    · have heq : m.ts.tape_head = (m.ts.tape.length : Int) := by omega
      have hroom : m.ts.memory_offset + 2 * (m.ts.tape.length : Int) ≤ MEMORY_POOL_SIZE := by
        have : (m.step_count : Int) < (STEP_LIMIT : Int) := by exact_mod_cast hlim
        omega
      have hsh := expand_tape_size_head m.ts hroom
      refine ⟨expand_tape m.ts, ?_, ?_, ?_, ?_, ?_, ?_⟩
      · unfold ensure_in_range TapeState.tape_size
        rw [if_pos (Or.inl (by omega))]
      · intro c hc
        rcases expand_tape_symbols m.ts hroom c hc with h | h
        · rw [h]; exact hblank
        · exact hsym c h
      · rw [hsh.2]; omega
      · rw [hsh.1, hsh.2]; push_cast; omega
      · rw [hsh.1, hsh.2]; push_cast; omega
      · rw [hsh.1, expand_tape_of_room m.ts hroom]
        push_cast
        omega
  obtain ⟨e, he, hesym, he1, he2, he3, he4⟩ := hens
  obtain ⟨i, hi⟩ : ∃ i : Nat, e.tape_head = (i : Int) := ⟨e.tape_head.toNat, by omega⟩
  have hilt : i < e.tape.length := by omega
  have hread : tape_read (ensure_in_range m.ts) = some e.tape[i] := by
    rw [he, tape_read_eq e i hi, List.getElem?_eq_getElem hilt]
  have hget : get_transition_from_hash (build_table rules) m.current_state e.tape[i]
      = some (right_rule e.tape[i]) := by
    rw [hstate]
    exact right_rule_lookup rules honly _ (hesym _ (List.getElem_mem _))
  refine ⟨_, run_step_found (build_table rules) m _ _ hlim hread hget, rfl, ?_⟩
  rw [he]
  refine ⟨show my_strcpy START = START by decide, ?_, ?_, ?_, ?_, ?_, ?_⟩
  · intro c hc
    rcases List.mem_or_eq_of_mem_set hc with h | h
    · exact hesym c h
    · rw [h]
      exact hesym _ (List.getElem_mem _)
  · simp only [move_head, right_rule, if_true]
    push_cast
    omega
  · simp only [move_head, right_rule, if_true, List.length_set]
    omega
  · simp only [move_head, right_rule, if_true, List.length_set]
    push_cast
    omega
  · simp only [List.length_set]
    exact he4
  · simp only [List.length_set]
    omega

/-- A run of scenario C ends at the step limit, with the head, and so the size
of the tape, at least the number of steps. -/
theorem right_run (rules : List Transition) (bound : Int)
    (honly : ∀ t ∈ rules, ∃ c, t = right_rule c) (hblank : right_rule BLANK ∈ rules)
    (hbound : bound + 8 * (STEP_LIMIT : Int) ≤ MEMORY_POOL_SIZE) :
    ∀ (fuel : Nat) (m : Machine), right_inv rules bound m →
    m.step_count ≤ STEP_LIMIT → STEP_LIMIT + 1 ≤ m.step_count + fuel →
    ∃ m1, run_loop (build_table rules) fuel m = some (Outcome.stepLimit, m1) ∧
      m1.step_count = STEP_LIMIT ∧ STEP_LIMIT ≤ m1.ts.tape.length := by
  intro fuel
  induction fuel with
  | zero => intro m _ h1 h2; omega
  | succ fuel ih =>
    intro m hinv h1 h2
    have hstart : ¬ (my_strcmp m.current_state STOP = 0) := by
      rw [hinv.1]; decide
    rw [run_loop, if_neg hstart]
    by_cases hlim : m.step_count < STEP_LIMIT
    · obtain ⟨m1, hstep, hcount, hinv1⟩ := right_step rules bound m honly hblank hbound hinv hlim
      rw [hstep]
      exact ih m1 hinv1 (by omega) (by omega)
    · have hstep : run_step (build_table rules) m = Step.done Outcome.stepLimit m := by
        unfold run_step
        rw [if_pos (by omega)]
      rw [hstep]
      refine ⟨m, rfl, by omega, ?_⟩
      obtain ⟨_, _, h3, h4, _⟩ := hinv
      have : (STEP_LIMIT : Int) ≤ (m.step_count : Int) := by exact_mod_cast (by omega)
      have : (STEP_LIMIT : Int) ≤ (m.ts.tape.length : Int) := by omega
      exact_mod_cast this

/-- C15: scenario C.  For every initial tape text of at most 4096 characters,
read with a million bytes left in the arena, whatever the bytes around the tape
are, and every table whose only rules are `("start", c) -> ("start", c, Right)`,
with one for the blank and one for every symbol on the tape: the engine ends
with the step-limit outcome after exactly 100000 transitions, and the tape is
then larger than 4096 cells. -/
theorem scenario_c (rules : List Transition) (memory_offset : Int) (text : List Char)
    (below above : List Char)
    (hnl : ∀ c ∈ text, c ≠ '\n') (hlen : text.length ≤ 4096)
    (hroom : memory_offset + 1000000 ≤ MEMORY_POOL_SIZE)
    (honly : ∀ t ∈ rules, ∃ c, t = right_rule c) (hblank : right_rule BLANK ∈ rules) :
    ∃ ts, readTape memory_offset text = some ts ∧
      ((∀ c ∈ ts.tape, right_rule c ∈ rules) →
        ∃ m, runMachine (build_table rules) ts below above = some (Outcome.stepLimit, m) ∧
          m.step_count = 100000 ∧ 4096 < m.ts.tape.length) := by
  obtain ⟨ts, hts, hsize, hhead, hmem⟩ := readTape_ok 8192 memory_offset text hnl
    (by decide) (by omega) (by omega)
  refine ⟨ts, hts, ?_⟩
  intro hsym
  have hhead1 : 0 ≤ ts.tape_head ∧ ts.tape_head ≤ 2048 := by
    rw [hhead]
    unfold INITIAL_TAPE_SIZE
    rw [Int.tdiv_eq_ediv (by omega) (by omega)]
    omega
  unfold INITIAL_TAPE_SIZE at hsize
  have hinv : right_inv rules (memory_offset + 16384) ⟨ts, START, 0, below, above⟩ := by
    refine ⟨rfl, hsym, ?_, ?_, ?_, ?_, ?_⟩
    · simp only [Nat.cast_zero]; omega
    · simp only [hsize]; omega
    · simp only [hsize, Nat.cast_zero]; omega
    · simp only [hsize]; omega
    · simp only [hsize]; omega
  obtain ⟨m, hrun, hcount, hlarge⟩ := right_run rules (memory_offset + 16384) honly hblank
    (by unfold STEP_LIMIT; push_cast; omega) (STEP_LIMIT + 1) ⟨ts, START, 0, below, above⟩ hinv
    (Nat.zero_le _) (by simp)
  refine ⟨m, hrun, hcount, ?_⟩
  unfold STEP_LIMIT at hlarge
  omega

/-- A witness for C15: the rules for the blank and for '1', the text "1", an
empty arena and no bytes written around the tape; every symbol of the tape built
has its rule. -/
theorem scenario_c_witness :
    ∃ (ts : TapeState) (m : Machine), readTape 0 ['1'] = some ts ∧
      runMachine (build_table [right_rule BLANK, right_rule '1']) ts [] []
        = some (Outcome.stepLimit, m) ∧
      m.step_count = 100000 ∧ 4096 < m.ts.tape.length := by
  obtain ⟨ts, hts, h⟩ := scenario_c [right_rule BLANK, right_rule '1'] 0 ['1'] [] []
    (by decide) (by decide) (by decide)
    (by
      intro t ht
      rcases List.mem_cons.1 ht with h | h
      · exact ⟨_, h⟩
      · exact ⟨_, List.mem_singleton.1 h⟩)
    (List.mem_cons_self _ _)
  obtain ⟨start, offset, hone⟩ := readTape_one 0 (by decide)
  have hts1 : (⟨List.replicate 2047 '_' ++ '1' :: List.replicate 2048 '_', start, 2047,
      offset⟩ : TapeState) = ts := Option.some.inj (hone.symm.trans hts)
  obtain ⟨m, hm⟩ := h (by
    rw [← hts1]
    intro c hc
    rcases List.mem_append.1 hc with h | h
    · rw [List.eq_of_mem_replicate h]
      exact List.mem_cons_self _ _
    · rcases List.mem_cons.1 h with h | h
      · rw [h]
        exact List.mem_cons_of_mem _ (List.mem_cons_self _ _)
      · rw [List.eq_of_mem_replicate h]
        exact List.mem_cons_self _ _)
  exact ⟨ts, m, hts, hm⟩

/-! ## The first growth of a run -/

/-- Every cell of a grown tape is blank or holds the symbol of a cell of the old
tape that lies before the new block. -/
theorem expand_tape_symbols_block (s : TapeState)
    (hroom : s.memory_offset + 2 * (s.tape.length : Int) ≤ MEMORY_POOL_SIZE) :
    ∀ c ∈ (expand_tape s).tape,
      c = BLANK ∨ c ∈ s.tape.take (s.memory_offset - s.tape_start).toNat := by
  intro c hc
  rw [expand_tape_of_room s hroom] at hc
  simp only at hc
  obtain ⟨gap, hgap⟩ : ∃ gap : Nat, (s.memory_offset - s.tape_start).toNat = gap := ⟨_, rfl⟩
  rw [hgap] at hc ⊢
  obtain ⟨j, hj⟩ := List.mem_iff_getElem?.1 hc
  rw [List.getElem?_drop] at hj
  have hold : (s.tape.take gap ++ List.replicate (gap - s.tape.length) NUL).length = gap := by
    rw [List.length_append, List.length_take, List.length_replicate]
    omega
  refine copy_cells_inv (fun c => c = BLANK ∨ c ∈ s.tape.take gap) s.tape.length gap
    (gap + s.tape.length / 2) s.tape.length 0 _ (by omega)
    (by rw [List.length_append, hold, List.length_replicate]; omega) ?_ (gap + j) c
    (Or.inr (by omega)) hj
  intro k d hk hd
  by_cases hkg : k < gap
  · have hkn : k < s.tape.length := by omega
    rw [List.append_assoc, List.getElem?_append_left
      (by rw [List.length_take]; omega)] at hd
    exact Or.inr (List.mem_iff_getElem?.2 ⟨_, hd⟩)
  · rw [List.getElem?_append_right (by rw [hold]; omega), hold] at hd
    exact Or.inl (List.eq_of_mem_replicate (List.mem_iff_getElem?.2 ⟨_, hd⟩))

/-- The tape that `readTape` builds from the text "1", with the place of its
block: the block has the 256 bytes of the input buffer and starts 256 bytes
behind the offset at which `readTape` was entered. -/
theorem readTape_one_block (memory_offset : Int)
    (hroom : memory_offset + 24576 ≤ MEMORY_POOL_SIZE) :
    readTape memory_offset ['1'] = some
      ⟨List.replicate 2047 '_' ++ '1' :: List.replicate 2048 '_', memory_offset + 256, 2047,
        memory_offset + 512⟩ := by
  obtain ⟨start, offset, hts⟩ := readTape_one memory_offset hroom
  have h1 : custom_malloc memory_offset 256 = some (memory_offset + 256) := by
    unfold custom_malloc
    rw [if_neg (by omega)]
  have h2 : read_tape_line ['1'] [] 256 (memory_offset + 256)
      = some (['1'], 256, memory_offset + 256) := by
    rw [read_tape_line, if_neg (by decide), if_neg (by decide), read_tape_line]
    rfl
  have h3 : custom_malloc (memory_offset + 256) 256 = some (memory_offset + 512) := by
    unfold custom_malloc
    rw [if_neg (by omega)]
    congr 1
    omega
  have hts1 := hts
  unfold readTape at hts1
  rw [h1] at hts1
  simp only [h2, h3] at hts1
  injection hts1 with hts1
  injection hts1 with _ hstart _ hoffset
  rw [hts, hstart, hoffset]

/-- C1, at its failing input: the tape that `readTape` builds from the text
"1", at the arena offset 8464 that the program has reached after a program file
with one record line.  The block requested for the tape has 256 bytes for 4096
cells, so the block of the grown tape starts at cell 256 of the old tape: the
fill loop of `expand_tape` blanks the cell that holds '1' before the copy loop
reads it.  Whatever the head, the grown tape is blank, its output is empty, and
the symbol under a head on the '1' is '_' after the growth. -/
theorem first_growth_erases_tape :
    ∃ s, readTape 8464 ['1'] = some s ∧ tape_read s = some '1' ∧
      printTape s = ['1', '\n'] ∧
      tape_read (expand_tape s) = some '_' ∧
      ∀ head : Int,
        (expand_tape ⟨s.tape, s.tape_start, head, s.memory_offset⟩).tape
          = List.replicate 8192 '_' ∧
        printTape (expand_tape ⟨s.tape, s.tape_start, head, s.memory_offset⟩) = ['\n'] := by
  obtain ⟨hlen1, hget1, _, hprint1⟩ := tape_one_cells 2047 2048 '1' (by decide)
  have hblank : ∀ head : Int,
      (expand_tape ⟨List.replicate 2047 '_' ++ '1' :: List.replicate 2048 '_', 8464 + 256, head,
        8464 + 512⟩).tape = List.replicate 8192 '_' := by
    intro head
    have hroom : (⟨List.replicate 2047 '_' ++ '1' :: List.replicate 2048 '_', 8464 + 256, head,
        8464 + 512⟩ : TapeState).memory_offset
        + 2 * ((⟨List.replicate 2047 '_' ++ '1' :: List.replicate 2048 '_', 8464 + 256, head,
          8464 + 512⟩ : TapeState).tape.length : Int) ≤ MEMORY_POOL_SIZE := by
      simp only [hlen1]
      decide
    rw [List.eq_replicate_iff]
    constructor
    · rw [(expand_tape_size_head _ hroom).1]
      simp only [hlen1]
    · intro c hc
      rcases expand_tape_symbols_block _ hroom c hc with h | h
      · exact h
      · have hgap : ((8464 : Int) + 512 - (8464 + 256)).toNat = 256 := by decide
        simp only [hgap] at h
        rw [List.take_append_of_le_length (by rw [List.length_replicate]; decide)] at h
        exact List.eq_of_mem_replicate (List.mem_of_mem_take h)
  refine ⟨_, readTape_one_block 8464 (by decide), ?_, ?_, ?_, ?_⟩
  · rw [tape_read_eq _ 2047 rfl]
    exact hget1
  · simp only [printTape, hprint1]
    rfl
  · have hroom : (⟨List.replicate 2047 '_' ++ '1' :: List.replicate 2048 '_', 8464 + 256, 2047,
        8464 + 512⟩ : TapeState).memory_offset
        + 2 * ((⟨List.replicate 2047 '_' ++ '1' :: List.replicate 2048 '_', 8464 + 256, 2047,
          8464 + 512⟩ : TapeState).tape.length : Int) ≤ MEMORY_POOL_SIZE := by
      simp only [hlen1]
      decide
    rw [tape_read_eq _ 4095 (by
      rw [(expand_tape_size_head _ hroom).2]
      simp only [hlen1]
      decide), hblank 2047, List.getElem?_replicate, if_pos (by decide)]
  · intro head
    refine ⟨hblank head, ?_⟩
    rw [printTape, hblank head, print_cells_replicate_blank]
    rfl

/-! ## A last line without its newline -/

theorem parse_loop_nil (fuel : Nat) (reads : List Nat) (p : Parser) :
    parse_loop fuel reads p [] = Except.ok p := by
  cases fuel with
  | zero => rfl
  | succ f =>
    rw [parse_loop]
    simp

/-- One pass of the outer loop on a regular file. -/
theorem parse_loop_step (fuel : Nat) (p : Parser) (file : List Char) :
    parse_loop (fuel + 1) [] p file =
      if file.take (p.buffer_size - p.buffer.length) = [] then Except.ok p
      else
        match feed p (file.take (p.buffer_size - p.buffer.length)) with
        | Except.error e => Except.error e
        | Except.ok p1 => parse_loop fuel [] p1 (file.drop (p.buffer_size - p.buffer.length)) := by
  rw [parse_loop]
  simp only [List.headD_nil, Nat.min_self, List.tail_nil]

/-- The copy loop on a buffer without a newline: all of it is stored over the
line buffer from `line_index` onwards. -/
theorem copy_line_all (l : List Char) : ∀ (done stale : List Char), '\n' ∉ l →
    copy_line l (done ++ stale) done.length
      = (done ++ l ++ stale.drop l.length, done.length + l.length, []) := by
  induction l with
  | nil =>
    intro done stale _
    simp [copy_line]
  | cons c cs ih =>
    intro done stale hnl
    have hc : c ≠ '\n' := fun e => hnl (by rw [e]; exact List.mem_cons_self _ _)
    have hcs : '\n' ∉ cs := fun e => hnl (List.mem_cons_of_mem _ e)
    rw [copy_line, if_neg hc, poke_at_end]
    have h := ih (done ++ [c]) (stale.drop 1) hcs
    simp only [List.length_append, List.length_singleton, List.append_assoc,
      List.singleton_append, List.drop_drop] at h
    rw [h]
    simp only [List.append_assoc, List.cons_append, List.length_cons, Prod.mk.injEq, true_and]
    rw [Nat.add_comm 1 cs.length]
    exact ⟨rfl, by omega, trivial⟩

/-- The fixed-offset reads on the line buffer that holds the first eight bytes
of the record line of scenario A followed by the whole line. -/
theorem parse_record_doubled (stale : List Char) :
    parse_record ("(start, (start, 1) -> (stop, 1) >".toList ++ NUL :: stale)
      = Except.ok (⟨"start".toList, '(', " 1) -> (stop".toList, '1', '>'⟩, 32) := by
  rfl

/-- A pass of the outer loop on a regular file whose read delivers bytes that
the line loop accepts. -/
theorem parse_loop_feed (fuel : Nat) (p p1 : Parser) (file chunk rest : List Char)
    (hchunk : file.take (p.buffer_size - p.buffer.length) = chunk)
    (hrest : file.drop (p.buffer_size - p.buffer.length) = rest)
    (hne : chunk ≠ []) (hfeed : feed p chunk = Except.ok p1) :
    parse_loop (fuel + 1) [] p file = parse_loop fuel [] p1 rest := by
  rw [parse_loop_step, hchunk, hrest, if_neg hne, hfeed]

/-- A pass of the line loop over a buffer without a newline, entered with
`line_index = 0`: the bytes are stored over the line buffer and stay in the
buffer. -/
theorem process_buffer_partial (fuel : Nat) (l line : List Char) (size n : Nat)
    (ts : List Transition) (hnl : '\n' ∉ l) (hne : l ≠ []) :
    process_buffer (fuel + 1) ⟨l, size, line, 0, n, ts⟩
      = Except.ok ⟨l, if l.length = size then size * 2 else size, l ++ line.drop l.length,
          l.length, n, ts⟩ := by
  rw [process_buffer, if_neg hne]
  have hcopy := copy_line_all l [] line hnl
  simp only [List.nil_append, List.length_nil, Nat.zero_add] at hcopy
  simp only
  rw [hcopy]

/-- The second pass over the record line of scenario A when its first eight
bytes were stored by an earlier pass: they are stored once more. -/
theorem process_buffer_doubled (fuel : Nat) (stale : List Char) :
    ∃ line, process_buffer (fuel + 1)
      ⟨"(start, 1) -> (stop, 1) >\n".toList, 4096, "(start, ".toList ++ stale, 8, 3, []⟩
      = Except.ok ⟨[], 4096, line, 0, 4,
          [⟨"start".toList, '(', " 1) -> (stop".toList, '1', '>'⟩]⟩ := by
  rw [process_buffer, if_neg (show ¬ ("(start, 1) -> (stop, 1) >\n".toList = []) by decide)]
  have hcopy := copy_line_ok "(start, 1) -> (stop, 1) >".toList "(start, ".toList stale []
    (by decide)
  have hcopy1 : copy_line "(start, 1) -> (stop, 1) >\n".toList ("(start, ".toList ++ stale) 8
      = ("(start, (start, 1) -> (stop, 1) >".toList ++ stale.drop 25, 33, ['\n']) := hcopy
  simp only
  rw [hcopy1]
  simp only
  have hpoke := poke_at_end "(start, (start, 1) -> (stop, 1) >".toList (stale.drop 25) NUL
  have hpoke1 : poke ("(start, (start, 1) -> (stop, 1) >".toList ++ stale.drop 25) 33 NUL
      = "(start, (start, 1) -> (stop, 1) >".toList ++ NUL :: (stale.drop 25).drop 1 := hpoke
  rw [hpoke1, if_pos (by decide), parse_record_doubled]
  simp only
  rw [if_neg (by decide), process_buffer_nil _ _ rfl]
  exact ⟨_, rfl⟩

/-- The parser on a regular file of 4114 bytes: a first header line `h1` of 4083
bytes, two header lines "h", and the record line of scenario A, whose first
eight bytes are the last of the first read. -/
theorem parseFile_straddle (h1 : List Char) (hh1 : '\n' ∉ h1) (hlen : h1.length = 4083) :
    parseFile (h1 ++ '\n' :: 'h' :: '\n' :: 'h' :: '\n' ::
        ("(start, ".toList ++ "1) -> (stop, 1) >\n".toList))
      = Except.ok [⟨"start".toList, '(', " 1) -> (stop".toList, '1', '>'⟩] := by
  have htake : (h1 ++ '\n' :: 'h' :: '\n' :: 'h' :: '\n' ::
        ("(start, ".toList ++ "1) -> (stop, 1) >\n".toList)).take 4096
      = h1 ++ '\n' :: 'h' :: '\n' :: 'h' :: '\n' :: "(start, ".toList := by
    rw [List.take_append_eq_append_take, hlen, List.take_of_length_le (by omega)]
    rfl
  have hdrop : (h1 ++ '\n' :: 'h' :: '\n' :: 'h' :: '\n' ::
        ("(start, ".toList ++ "1) -> (stop, 1) >\n".toList)).drop 4096
      = "1) -> (stop, 1) >\n".toList := by
    rw [List.drop_append_eq_append_drop, hlen, List.drop_of_length_le (by omega)]
    rfl
  have hfeed1 : ∃ stale, feed Parser.init
      (h1 ++ '\n' :: 'h' :: '\n' :: 'h' :: '\n' :: "(start, ".toList)
      = Except.ok ⟨"(start, ".toList, 4096, "(start, ".toList ++ stale, 8, 3, []⟩ := by
    unfold feed
    rw [if_neg (by
      simp only [Parser.init, List.length_nil, List.length_append, List.length_cons, hlen]
      decide)]
    have hfuel : Parser.init.buffer.length
        + (h1 ++ '\n' :: 'h' :: '\n' :: 'h' :: '\n' :: "(start, ".toList).length
          = 4092 + 1 + 1 + 1 + 1 := by
      simp only [Parser.init, List.length_nil, List.length_append, List.length_cons, hlen]
      rfl
    rw [hfuel]
    show ∃ stale, process_buffer (4092 + 1 + 1 + 1 + 1)
      ⟨h1 ++ '\n' :: (['h'] ++ '\n' :: (['h'] ++ '\n' :: "(start, ".toList)), BUFFER_SIZE, [], 0, 0,
        []⟩ = _
    rw [process_buffer_skip _ h1 _ _ _ _ _ hh1 (by decide),
      process_buffer_skip _ ['h'] _ _ _ _ _ (by decide) (by decide),
      process_buffer_skip _ ['h'] _ _ _ _ _ (by decide) (by decide),
      process_buffer_partial _ _ _ _ _ _ (by decide) (by decide)]
    exact ⟨_, rfl⟩
  obtain ⟨stale, hfeed1⟩ := hfeed1
  obtain ⟨line, hpass⟩ := process_buffer_doubled 25 stale
  have hfeed2 : feed ⟨"(start, ".toList, 4096, "(start, ".toList ++ stale, 8, 3, []⟩
      "1) -> (stop, 1) >\n".toList
      = Except.ok ⟨[], 4096, line, 0, 4,
          [⟨"start".toList, '(', " 1) -> (stop".toList, '1', '>'⟩]⟩ := by
    unfold feed
    rw [if_neg (show ¬ ("(start, ".toList.length + "1) -> (stop, 1) >\n".toList.length
      > BUFFER_SIZE) by decide)]
    exact hpass
  have hfuel : (h1 ++ '\n' :: 'h' :: '\n' :: 'h' :: '\n' ::
        ("(start, ".toList ++ "1) -> (stop, 1) >\n".toList)).length = 4112 + 1 + 1 := by
    simp only [List.length_append, List.length_cons, hlen]
    rfl
  have hloop : parse_loop (4112 + 1 + 1) [] Parser.init
      (h1 ++ '\n' :: 'h' :: '\n' :: 'h' :: '\n' ::
        ("(start, ".toList ++ "1) -> (stop, 1) >\n".toList))
      = Except.ok ⟨[], 4096, line, 0, 4,
          [⟨"start".toList, '(', " 1) -> (stop".toList, '1', '>'⟩]⟩ :=
    (parse_loop_feed (4112 + 1) Parser.init
      ⟨"(start, ".toList, 4096, "(start, ".toList ++ stale, 8, 3, []⟩
      (h1 ++ '\n' :: 'h' :: '\n' :: 'h' :: '\n' ::
        ("(start, ".toList ++ "1) -> (stop, 1) >\n".toList))
      (h1 ++ '\n' :: 'h' :: '\n' :: 'h' :: '\n' :: "(start, ".toList)
      "1) -> (stop, 1) >\n".toList htake hdrop
      (List.append_ne_nil_of_right_ne_nil _ (List.cons_ne_nil _ _)) hfeed1).trans
    ((parse_loop_feed 4112 ⟨"(start, ".toList, 4096, "(start, ".toList ++ stale, 8, 3, []⟩
      ⟨[], 4096, line, 0, 4, [⟨"start".toList, '(', " 1) -> (stop".toList, '1', '>'⟩]⟩
      "1) -> (stop, 1) >\n".toList "1) -> (stop, 1) >\n".toList []
      (List.take_of_length_le (show "1) -> (stop, 1) >\n".toList.length
        ≤ 4096 - "(start, ".toList.length by decide))
      (List.drop_of_length_le (show "1) -> (stop, 1) >\n".toList.length
        ≤ 4096 - "(start, ".toList.length by decide))
      (show "1) -> (stop, 1) >\n".toList ≠ [] by decide) hfeed2).trans
    (parse_loop_nil _ _ _))
  unfold parseFile parseMachineFile
  rw [hfuel, hloop]

set_option maxRecDepth 100000 in
/-- C19, at its failing inputs.  The program text of scenario A, 34 bytes,
arrives whole in one read and yields the transition of scenario A; when the
first read delivers 12 bytes of it, the bytes "(st" of the record line are
stored twice and the transition has the start state "st(start".  On a regular
file of 4114 bytes whose first read of 4096 bytes ends eight bytes into the
same record line, the transition has the read symbol '(' and the next state
" 1) -> (stop". -/
theorem chunked_read_differs :
    parseMachineFile [] "h1\nh2\nh3\n(start, 1) -> (stop, 1) >\n".toList
      = Except.ok [⟨START, '1', STOP, '1', '>'⟩] ∧
    parseMachineFile [12] "h1\nh2\nh3\n(start, 1) -> (stop, 1) >\n".toList
      = Except.ok [⟨"st(start".toList, '1', STOP, '1', '>'⟩] ∧
    parseFile (List.replicate 4083 'h' ++ "\nh\nh\n(start, 1) -> (stop, 1) >\n".toList)
      = Except.ok [⟨START, '(', " 1) -> (stop".toList, '1', '>'⟩] :=
  ⟨by decide, by decide,
   parseFile_straddle (List.replicate 4083 'h')
     (fun h => absurd (List.eq_of_mem_replicate h) (by decide)) (List.length_replicate _ _)⟩

end Turing
